import Mathlib

/-!
Verification development for the dynetx temporal-graph library.

The definitions below are a shallow embedding of the Python sources:

* `src/dynetx/classes/dyngraph.py` (class `DynGraph`): the temporal graph
  store.  Python dictionaries are modelled by association lists that keep
  insertion order (exactly the iteration order of a CPython `dict`), node
  identifiers by `Nat` (nodes are opaque hashable values in the source),
  snapshot identifiers by `Int`.
* `src/dynetx/algorithms/paths.py`: `temporal_dag`,
  `time_respecting_paths`, `all_time_respecting_paths`, `annotate_paths`,
  `path_length`, `path_duration`.
* `src/dynetx/algorithms/assortativity.py`: `delta_conformity` and its
  private helpers, with rational arithmetic in place of Python floats and
  integer damping factors (the inputs exercised by the theorems only use
  small integers, where float and exact arithmetic agree on every
  comparison performed).

Python code mutates `self` in place and raises exceptions; the embedding
returns the state reached at the raise point together with an error code,
so that partial mutations performed before a raise stay observable.
-/

/-- Error conditions raised by the modelled Python code:
`missingT` = `nx.NetworkXError` for an absent mandatory timestamp,
`orderViolation` = the `ValueError` raised for a span starting before the
current tail interval, `keyError` = an uncaught Python `KeyError` /
`IndexError` from an unguarded `del`, `badRange` = the `ValueError` of
`time_slice` for `t_to < t_from`, `outOfRange` = the `ValueError` of
`temporal_dag` for a window outside the recorded snapshot ids. -/
inductive Err where
  | missingT
  | orderViolation
  | keyError
  | badRange
  | outOfRange
deriving DecidableEq

/-- One ledger token `(u, v, op)`; `op = true` is `"+"`, `op = false` is `"-"`. -/
abbrev Token := Nat × Nat × Bool

/-- The `time_to_edge` event ledger: snapshot id to the token set stored
there (a Python inner dict with `None` values, so only key order matters). -/
abbrev Ledger := List (Int × List Token)

/-- The `'t'` attribute of one edge: its list of closed intervals `[s, e]`. -/
abbrev Timeline := List (Int × Int)

/-- The edge registry: each undirected edge appears once, under the node
orientation of its first `add_interaction` call, holding the shared
`datadict['t']` timeline (in Python both adjacency slots alias one dict). -/
abbrev EdgeReg := List ((Nat × Nat) × Timeline)

/-- The `snapshots` counter dict: snapshot id to touch count. -/
abbrev Snaps := List (Int × Nat)

/-- The outer `_adj` dict: node to the key list of its inner adjacency dict. -/
abbrev Adj := List (Nat × List Nat)

/-- A node attribute value: either a plain value or a Python dict mapping a
snapshot id to a value (the time-varying labels used by `delta_conformity`).
Attribute names and label values are both modelled by `Nat`. -/
inductive AttrVal where
  | stat (v : Nat)
  | dyn (m : List (Int × Nat))
deriving DecidableEq

/-- The `_node` dict: node to its attribute dict. -/
abbrev Attrs := List (Nat × List (Nat × AttrVal))

/-- State of one `DynGraph` instance (`dyngraph.py`, `__init__`):
`nodeAttrs` is `_node`, `adj` is `_adj` (key structure only; inner values
live in `tl`), `tl` holds the shared per-edge `datadict['t']` lists,
`ledger` is `time_to_edge`, `snaps` is `snapshots`. -/
structure DynGraph where
  nodeAttrs : Attrs
  adj : Adj
  tl : EdgeReg
  ledger : Ledger
  snaps : Snaps
  edgeRemoval : Bool
deriving DecidableEq

/-- The empty store, `DynGraph(edge_removal=er)`. -/
def DynGraph.empty (er : Bool) : DynGraph := ⟨[], [], [], [], [], er⟩

/-- Keys of `_node`, i.e. the node set in insertion order. -/
def DynGraph.nodes (g : DynGraph) : List Nat := g.nodeAttrs.map Prod.fst

/-- Generic association-list lookup (first match), the model of `d[k]`. -/
def aGet {β : Type} (l : List (Nat × β)) (k : Nat) : Option β :=
  match l with
  | [] => none
  | (k', b) :: rest => if k' = k then some b else aGet rest k

/-- Generic association-list lookup keyed by `Int`. -/
def aGetI {β : Type} (l : List (Int × β)) (k : Int) : Option β :=
  match l with
  | [] => none
  | (k', b) :: rest => if k' = k then some b else aGetI rest k

/-- Generic association-list update `d[k] = b`: replaces the value at an
existing key in place (keeping dict order) or appends a new key. -/
def aSet {β : Type} (l : List (Nat × β)) (k : Nat) (b : β) : List (Nat × β) :=
  match l with
  | [] => [(k, b)]
  | (k', b') :: rest => if k' = k then (k, b) :: rest else (k', b') :: aSet rest k b

/-- Association-list update keyed by `Int`. -/
def aSetI {β : Type} (l : List (Int × β)) (k : Int) (b : β) : List (Int × β) :=
  match l with
  | [] => [(k, b)]
  | (k', b') :: rest => if k' = k then (k, b) :: rest else (k', b') :: aSetI rest k b

/-- Does the unordered key `k` match the node pair `{u, v}`? -/
def pairMatch (k : Nat × Nat) (u v : Nat) : Bool :=
  (k.1 = u && k.2 = v) || (k.1 = v && k.2 = u)

/-- Lookup of the shared edge dict `self._adj[u].get(v)['t']`; symmetric in
`u, v` because both adjacency slots alias one `datadict`. -/
def findTl (r : EdgeReg) (u v : Nat) : Option Timeline :=
  match r with
  | [] => none
  | (k, tl) :: rest => if pairMatch k u v then some tl else findTl rest u v

/-- Write the shared edge dict back: replaces the registry entry of `{u, v}`
if it exists (keeping its stored key orientation) and appends a fresh
`(u, v)` entry otherwise. -/
def setTl (r : EdgeReg) (u v : Nat) (t : Timeline) : EdgeReg :=
  match r with
  | [] => [((u, v), t)]
  | (k, tl) :: rest =>
      if pairMatch k u v then (k, t) :: rest else (k, tl) :: setTl rest u v t

/-- Neighbor key list of `_adj[n]`, `none` when `n` is not an `_adj` key. -/
def adjNbrs (a : Adj) (n : Nat) : Option (List Nat) := aGet a n

/-- `self._adj[u][v] = datadict` restricted to the key structure: appends
`v` to the inner key list of `u` when absent (values live in the registry). -/
def adjAddNbr (a : Adj) (n m : Nat) : Adj :=
  match a with
  | [] => []
  | (k, l) :: rest =>
      if k = n then (k, if m ∈ l then l else l ++ [m]) :: rest
      else (k, l) :: adjAddNbr rest n m

/-- `nx.Graph.has_edge(u, v)`: `v in self._adj[u]` guarded against a
missing `u`. -/
def hasEdgeB (g : DynGraph) (u v : Nat) : Bool :=
  match adjNbrs g.adj u with
  | some l => v ∈ l
  | none => false

/-- Tokens stored at ledger key `t` (`none` when `t` is not a key; an empty
token list still counts as a present key, as in Python). -/
def tokensAt (L : Ledger) (t : Int) : Option (List Token) := aGetI L t

/-- Is `t` a key of `time_to_edge`? -/
def ledgerHasKey (L : Ledger) (t : Int) : Bool := (tokensAt L t).isSome

/-- Is the token present: `t in time_to_edge and tok in time_to_edge[t]`? -/
def ledgerHasTok (L : Ledger) (t : Int) (tok : Token) : Bool :=
  match tokensAt L t with
  | some toks => tok ∈ toks
  | none => false

/-- `time_to_edge[t][tok] = None` (with creation of the inner dict when the
key is fresh); inserting an already present token is a no-op on key order. -/
def ledgerAdd (L : Ledger) (t : Int) (tok : Token) : Ledger :=
  match L with
  | [] => [(t, [tok])]
  | (t', toks) :: rest =>
      if t' = t then (t', if tok ∈ toks then toks else toks ++ [tok]) :: rest
      else (t', toks) :: ledgerAdd rest t tok

/-- `del time_to_edge[t][tok]`: `none` models the `KeyError` Python raises
when the outer key or the token is absent.  A token set emptied by the
deletion keeps its (now empty) outer entry, as Python does. -/
def ledgerDel (L : Ledger) (t : Int) (tok : Token) : Option Ledger :=
  match L with
  | [] => none
  | (t', toks) :: rest =>
      if t' = t then
        if tok ∈ toks then some ((t', toks.erase tok) :: rest) else none
      else
        match ledgerDel rest t tok with
        | some rest' => some ((t', toks) :: rest')
        | none => none

/-- Deletion used where the source first tests `tok in time_to_edge[t]`:
total, a no-op when the token is absent. -/
def ledgerDelSafe (L : Ledger) (t : Int) (tok : Token) : Ledger :=
  match ledgerDel L t tok with
  | some L' => L'
  | none => L

/-- `snapshots[t] += 1` with creation at 1 for a fresh key. -/
def snapBump (s : Snaps) (t : Int) : Snaps :=
  match s with
  | [] => [(t, 1)]
  | (t', c) :: rest =>
      if t' = t then (t', c + 1) :: rest else (t', c) :: snapBump rest t

/-- `for idt in range(lo, hi + 1): snapshots[idt] += 1` (empty when `hi < lo`). -/
def snapBumpRange (s : Snaps) (lo hi : Int) : Snaps :=
  (List.range (hi + 1 - lo).toNat).foldl (fun acc (i : Nat) => snapBump acc (lo + i)) s

/-- Node (and `_adj` slot) creation performed at the top of
`add_interaction`:  `self._adj[u] = factory(); self._node[u] = {}`. -/
def ensureNode (g : DynGraph) (u : Nat) : DynGraph :=
  if u ∈ g.nodes then g
  else { g with nodeAttrs := g.nodeAttrs ++ [(u, [])], adj := g.adj ++ [(u, [])] }

/-- Ledger phase of `add_interaction` (dyngraph.py lines 361-377): records
the `"+"` token at `t0` unless the graph is accumulative and the edge
already exists, then, when `e` is given and removal is allowed, rewrites
the span end to `e - 1` and records the `"-"` token at `e`.  Returns the
effective span end `t[1]` together with the updated state. -/
def aiLedgerPhase (g : DynGraph) (u v : Nat) (t0 : Int) (e : Option Int) :
    Int × DynGraph :=
  let g2 :=
    if hasEdgeB g u v && !g.edgeRemoval then g
    else { g with ledger := ledgerAdd g.ledger t0 (u, v, true) }
  match e with
  | some ev =>
      if g.edgeRemoval then
        (ev - 1, { g2 with ledger := ledgerAdd g2.ledger ev (u, v, false) })
      else (t0, g2)
  | none => (t0, g2)

/-- Timeline phase of `add_interaction` (dyngraph.py lines 380-419): the
four merge/append branches over the edge's interval list, together with
their ledger cleanup.  Mirrors the Python statement order so that a raise
leaves exactly the mutations performed before it. -/
def aiTimeline (g : DynGraph) (u v : Nat) (t0 t1 : Int) : DynGraph × Option Err :=
  match findTl g.tl u v with
  | none => ({ g with tl := setTl g.tl u v [(t0, t1)] }, none)
  | some app =>
    match app.getLast? with
    | none => (g, some .keyError)
    | some last =>
      let ls := last.1
      let me := last.2
      if ls = me && t0 = ls + 1 then
        -- degenerate tail merged with a contiguous span
        let g4 := { g with tl := setTl g.tl u v (app.dropLast ++ [(ls, t1)]) }
        let g5 :=
          if ledgerHasTok g4.ledger (ls + 1) (u, v, true) then
            { g4 with ledger := ledgerDelSafe g4.ledger (ls + 1) (u, v, true) }
          else g4
        (g5, none)
      else if t0 < ls then (g, some .orderViolation)
      else if t0 ≤ me && me < t1 then
        -- span overlaps the tail and extends past its end
        let g4 := { g with tl := setTl g.tl u v (app.dropLast ++ [(ls, t1)]) }
        if ledgerHasKey g4.ledger (me + 1) then
          match
            (if g4.edgeRemoval then ledgerDel g4.ledger (me + 1) (u, v, false)
             else some g4.ledger) with
          | none => (g4, some .keyError)
          | some L2 =>
            match ledgerDel L2 t0 (u, v, true) with
            | none => ({ g4 with ledger := L2 }, some .keyError)
            | some L3 => ({ g4 with ledger := L3 }, none)
        else (g4, none)
      else if me = t0 - 1 then
        -- span starts exactly after the tail ends
        let g4 :=
          if ledgerHasTok g.ledger (me + 1) (u, v, true) then
            let L1 := ledgerDelSafe g.ledger (me + 1) (u, v, true)
            if g.edgeRemoval then
              let L2 := ledgerDelSafe L1 (me + 1) (u, v, false)
              { g with ledger := ledgerAdd L2 (t1 + 1) (u, v, false) }
            else { g with ledger := L1 }
          else g
        ({ g4 with tl := setTl g4.tl u v (app.dropLast ++ [(ls, t1)]) }, none)
      else
        ({ g with tl := setTl g.tl u v (app ++ [(t0, t1)]) }, none)

/-- Tail of `add_interaction` (dyngraph.py lines 421-437): snapshot-counter
increments (over the whole span when `e` was given, otherwise once per
element of the two-element list `t = [t0, t1]`) and the symmetric
installation of the shared `datadict` in both adjacency slots. -/
def aiFinish (g : DynGraph) (u v : Nat) (t0 t1 : Int) (e : Option Int) : DynGraph :=
  let s' :=
    match e with
    | some _ => snapBumpRange g.snaps t0 t1
    | none => snapBump (snapBump g.snaps t0) t1
  { g with snaps := s', adj := adjAddNbr (adjAddNbr g.adj u v) v u }

/-- `DynGraph.add_interaction(u, v, t, e)` (dyngraph.py lines 311-437).
Returns the state reached by the call together with the raised error, if
any; on an error the state still contains every mutation performed before
the raise (Python mutates `self` in place). -/
def addInteraction (g : DynGraph) (u v : Nat) (t? e : Option Int) :
    DynGraph × Option Err :=
  match t? with
  | none => (g, some .missingT)
  | some t0 =>
    let g1 := ensureNode (ensureNode g u) v
    let p := aiLedgerPhase g1 u v t0 e
    match aiTimeline p.2 u v t0 p.1 with
    | (g4, some err) => (g4, some err)
    | (g4, none) => (aiFinish g4 u v t0 p.1 e, none)

/-- One call record `(u, v, t, e)` for replaying interaction sequences. -/
abbrev Call := Nat × Nat × Option Int × Option Int

/-- Replays a call sequence, `none` as soon as one call raises. -/
def applyCalls (g : DynGraph) : List Call → Option DynGraph
  | [] => some g
  | (u, v, t?, e) :: rest =>
      match addInteraction g u v t? e with
      | (g', none) => applyCalls g' rest
      | (_, some _) => none

/-- Maximum recorded snapshot id, `max(self.temporal_snapshots_ids())`
(only queried on non-empty stores in the source). -/
def maxSnapId (g : DynGraph) : Option Int := (g.snaps.map Prod.fst).max?

/-- `DynGraph.__presence_test(u, v, t)` (dyngraph.py lines 242-253): fast
range guard on the first interval's start and the last interval's end,
then a linear scan; accumulative graphs only compare against the first
start and the global maximum snapshot id.  The source never calls this on
a missing edge; a missing edge yields `false` here. -/
def presenceTest (g : DynGraph) (u v : Nat) (t : Int) : Bool :=
  match findTl g.tl u v with
  | none => false
  | some spans =>
    match spans.head?, spans.getLast? with
    | some f, some l =>
      if g.edgeRemoval then
        decide (f.1 ≤ t ∧ t ≤ l.2) && spans.any (fun s => decide (s.1 ≤ t ∧ t ≤ s.2))
      else
        match maxSnapId g with
        | some m => decide (f.1 ≤ t ∧ t ≤ m)
        | none => false
    | _, _ => false

/-- `DynGraph.has_interaction(u, v, t)` (dyngraph.py lines 523-557),
including the `except KeyError: return False` guard. -/
def hasInteraction (g : DynGraph) (u v : Nat) (t? : Option Int) : Bool :=
  match adjNbrs g.adj u with
  | none => false
  | some nbrs =>
    match t? with
    | none => v ∈ nbrs
    | some t => v ∈ nbrs && presenceTest g u v t

/-- `DynGraph.neighbors(n, t)` (dyngraph.py lines 559-599).  With a
timestamp the source returns `[]` for an unknown node; without one it
raises, a case no modelled caller reaches. -/
def neighborsAt (g : DynGraph) (n : Nat) (t? : Option Int) : List Nat :=
  match adjNbrs g.adj n with
  | none => []
  | some nbrs =>
    match t? with
    | none => nbrs
    | some t => nbrs.filter (fun m => presenceTest g n m t)

/-- Per-node degree as produced by `DynGraph.degree_iter` (dyngraph.py
lines 699-714): the inner-dict size, presence-filtered when `t` is given. -/
def degreeAt (g : DynGraph) (n : Nat) (t? : Option Int) : Nat :=
  match adjNbrs g.adj n with
  | none => 0
  | some nbrs =>
    match t? with
    | none => nbrs.length
    | some t => (nbrs.filter (fun m => presenceTest g n m t)).length

/-- `sum(self.degree(t=t).values())`, iterating `_adj` in key order. -/
def sumDegrees (g : DynGraph) (t? : Option Int) : Nat :=
  g.adj.foldl (fun acc p => acc + degreeAt g p.1 t?) 0

/-- `DynGraph.size(t)` (dyngraph.py lines 716-743): half the degree sum,
truncated to an integer. -/
def size (g : DynGraph) (t? : Option Int) : Nat := sumDegrees g t? / 2

/-- `DynGraph.number_of_interactions(u, v, t)` (dyngraph.py lines
470-521).  `Except.error ()` models the uncaught `KeyError` on
`self._adj[u]` for an unknown `u`; `Except.ok none` models the `None`
Python returns when the branch chain falls through (single node given, or
`v` not adjacent to `u` in the timed branch). -/
def numberOfInteractions (g : DynGraph) (u? v? : Option Nat) (t? : Option Int) :
    Except Unit (Option Nat) :=
  match t? with
  | none =>
    match u? with
    | none => .ok (some (size g none))
    | some u =>
      match v? with
      | none => .ok none
      | some v =>
        match adjNbrs g.adj u with
        | none => .error ()
        | some nbrs => .ok (some (if v ∈ nbrs then 1 else 0))
  | some t =>
    match u? with
    | none => .ok (some (size g (some t)))
    | some u =>
      match v? with
      | none => .ok none
      | some v =>
        match adjNbrs g.adj u with
        | none => .error ()
        | some nbrs =>
          if v ∈ nbrs then .ok (some (if presenceTest g u v t then 1 else 0))
          else .ok none

/-- `DynGraph.has_node(n, t)` (dyngraph.py lines 827-860): membership in
`_node` when `t` is absent, else positive degree at `t` (an unknown node
is quietly skipped by `nbunch_iter` and reports `False`). -/
def hasNodeAt (g : DynGraph) (n : Nat) (t? : Option Int) : Bool :=
  match t? with
  | none => n ∈ g.nodes
  | some _ =>
    match adjNbrs g.adj n with
    | none => false
    | some _ => decide (0 < degreeAt g n t?)

/-- `DynGraph.nodes(t)` via `nodes_iter` (dyngraph.py lines 128-162): all
nodes when `t` is absent, else the nodes of positive degree at `t` in
`_adj` iteration order. -/
def nodesAt (g : DynGraph) (t? : Option Int) : List Nat :=
  match t? with
  | none => g.nodes
  | some t => (g.adj.map Prod.fst).filter (fun n => decide (0 < degreeAt g n (some t)))

/-- `DynGraph.temporal_snapshots_ids()` (dyngraph.py lines 1122-1141):
`sorted(self.snapshots.keys())`. -/
def temporalSnapshotIds (g : DynGraph) : List Int :=
  List.insertionSort (fun a b => a ≤ b) (g.snaps.map Prod.fst)

/-- `DynGraph.interactions_iter()` with `nbunch=None, t=None` (dyngraph.py
lines 255-309): walks `_adj` in key order, skipping neighbors whose own
entry was already visited, yielding each undirected edge once with its
shared timeline. -/
def interactionsIterGo (g : DynGraph) : List (Nat × List Nat) → List Nat →
    List ((Nat × Nat) × Timeline)
  | [], _ => []
  | (n, nbrs) :: rest, seen =>
      (nbrs.filter (fun m => decide (m ∉ seen))).map
        (fun m => ((n, m), (findTl g.tl n m).getD []))
        ++ interactionsIterGo g rest (seen ++ [n])

/-- The full edge enumeration used by `time_slice`. -/
def interactionsList (g : DynGraph) : List ((Nat × Nat) × Timeline) :=
  interactionsIterGo g g.adj []

/-- One iteration of the interval loop of `DynGraph.time_slice`
(dyngraph.py lines 1050-1065) for the interval `iv = (a, b)` of the edge
`(u, v)` against the window `[fFrom, iTo]`: skip non-intersecting
intervals, then dispatch one of the four clipping calls, whose fourth
argument is passed as the vanishing time `e` of `add_interaction`. -/
def sliceInterval (H : DynGraph) (u v : Nat) (fFrom iTo : Int) (iv : Int × Int) :
    DynGraph × Option Err :=
  if iTo < iv.1 || fFrom > iv.2 then (H, none)
  else if fFrom ≥ iv.1 && iTo ≤ iv.2 then
    addInteraction H u v (some fFrom) (some iTo)
  else if iv.1 ≥ fFrom && iTo ≤ iv.2 then
    addInteraction H u v (some iv.1) (some iTo)
  else if fFrom ≥ iv.1 && iv.2 ≤ iTo then
    addInteraction H u v (some fFrom) (some iv.2)
  else if fFrom ≤ iv.1 && iv.2 ≤ iTo then
    addInteraction H u v (some iv.1) (some iv.2)
  else (H, none)

/-- Folds `sliceInterval` over one edge's interval list, propagating a
raise. -/
def sliceEdge (H : DynGraph) (u v : Nat) (fFrom iTo : Int) :
    Timeline → DynGraph × Option Err
  | [] => (H, none)
  | iv :: rest =>
      match sliceInterval H u v fFrom iTo iv with
      | (H', none) => sliceEdge H' u v fFrom iTo rest
      | (H', some err) => (H', some err)

/-- Folds `sliceEdge` over the edge enumeration. -/
def sliceEdges (fFrom iTo : Int) : DynGraph → List ((Nat × Nat) × Timeline) →
    DynGraph × Option Err
  | H, [] => (H, none)
  | H, ((u, v), ts) :: rest =>
      match sliceEdge H u v fFrom iTo ts with
      | (H', none) => sliceEdges fFrom iTo H' rest
      | (H', some err) => (H', some err)

/-- `DynGraph.time_slice(t_from, t_to)` (dyngraph.py lines 1013-1070).
The fresh store `H = self.__class__()` always has `edge_removal=True`;
after the interval loop every node of `H` receives the original node's
attribute dict by reference. -/
def timeSlice (g : DynGraph) (tFrom : Int) (tTo? : Option Int) :
    Except Err DynGraph :=
  match tTo? with
  | some tTo =>
    if tTo < tFrom then .error .badRange
    else
      match sliceEdges tFrom tTo (DynGraph.empty true) (interactionsList g) with
      | (H, none) =>
          .ok { H with nodeAttrs :=
                  H.nodeAttrs.map (fun p => (p.1, (aGet g.nodeAttrs p.1).getD [])) }
      | (_, some err) => .error err
  | none =>
      match sliceEdges tFrom tFrom (DynGraph.empty true) (interactionsList g) with
      | (H, none) =>
          .ok { H with nodeAttrs :=
                  H.nodeAttrs.map (fun p => (p.1, (aGet g.nodeAttrs p.1).getD [])) }
      | (_, some err) => .error err

/-- A node of the temporal DAG.  The source encodes temporal copies as the
composite string `f"{n}_{tid}"` and recovers the parts with `split("_")`;
for node names containing no underscore (the only kind the modelled
queries use) that encoding is exactly this structured pair, with `base`
standing for a raw, not yet snapshot-suffixed identifier. -/
inductive DagNode where
  | base (n : Nat)
  | comp (n : Nat) (t : Int)
deriving DecidableEq

/-- The underlying node id, `str(an).split("_")[0]`. -/
def dagName : DagNode → Nat
  | .base n => n
  | .comp n _ => n

/-- The snapshot id of a temporal copy (`split("_")[1]`); a raw node never
appears in successor position, so the `base` value is arbitrary. -/
def dagTime : DagNode → Int
  | .base _ => 0
  | .comp _ t => t

/-- The `nx.DiGraph` produced by `temporal_dag`: edge list and node list,
both in insertion order and duplicate-free. -/
structure TDag where
  edges : List (DagNode × DagNode)
  dnodes : List DagNode
deriving DecidableEq

/-- Append an element unless present, the order-preserving dict/set insert. -/
def dedupApp {α : Type} [DecidableEq α] (l : List α) (x : α) : List α :=
  if x ∈ l then l else l ++ [x]

/-- `DG.add_edge(a, b)`: registers both endpoints and the directed edge. -/
def dagAddEdge (d : TDag) (a b : DagNode) : TDag :=
  ⟨dedupApp d.edges (a, b), dedupApp (dedupApp d.dnodes a) b⟩

/-- Accumulator of the per-snapshot loop (paths.py lines 89-117). -/
structure DagAcc where
  dg : TDag
  sources : List DagNode
  targets : List DagNode
  toAdd : List DagNode
  toRem : List DagNode

/-- Body of `for an in active` (paths.py lines 92-111): fetch the
underlying node's neighbors at `tid` as temporal copies, record targets,
mark dead-end copies for removal, suffix a still-raw root occurrence
(recording it as a source), and add one DAG edge per neighbor. -/
def dagVisit (g : DynGraph) (u : Nat) (v? : Option Nat) (tid : Int)
    (acc : DagAcc) (an : DagNode) : DagAcc :=
  let nbrs := (neighborsAt g (dagName an) (some tid)).map (fun m => DagNode.comp m tid)
  let tg :=
    match v? with
    | some vv =>
        if DagNode.comp vv tid ∈ nbrs then dedupApp acc.targets (DagNode.comp vv tid)
        else acc.targets
    | none => nbrs.foldl dedupApp acc.targets
  let rm := if nbrs.isEmpty && an ≠ DagNode.base u then acc.toRem ++ [an] else acc.toRem
  let ren :=
    match an with
    | .base n =>
        if nbrs.isEmpty then (an, acc.sources)
        else (DagNode.comp n tid, dedupApp acc.sources (DagNode.comp n tid))
    | _ => (an, acc.sources)
  let dg := nbrs.foldl (fun d nb => dagAddEdge d ren.1 nb) acc.dg
  ⟨dg, ren.2, tg, acc.toAdd ++ nbrs, rm⟩

/-- State carried across snapshots: the accumulator plus the `active` dict. -/
structure DagSt where
  dg : TDag
  sources : List DagNode
  targets : List DagNode
  active : List DagNode

/-- One snapshot iteration (paths.py lines 89-117): visit every active
copy, then extend `active` with the copies reached now and drop the
dead ends collected in `to_remove`. -/
def dagTidStep (g : DynGraph) (u : Nat) (v? : Option Nat) (st : DagSt)
    (tid : Int) : DagSt :=
  let a := st.active.foldl (dagVisit g u v? tid) ⟨st.dg, st.sources, st.targets, [], []⟩
  let act := (a.toAdd.foldl dedupApp st.active).filter (fun x => decide (x ∉ a.toRem))
  ⟨a.dg, a.sources, a.targets, act⟩

/-- Python list slicing `xs[i:j]` for a non-negative start index and an
arbitrary integer end bound (negative bounds count from the end). -/
def pySlice {α : Type} (xs : List α) (i : Nat) (j : Int) : List α :=
  let j2 := if j < 0 then j + xs.length else j
  let jn := if j2 ≤ 0 then 0 else min j2.toNat xs.length
  (xs.take jn).drop i

/-- `temporal_dag(G, u, v, start, end)` (paths.py lines 15-119): empty
result on a store with no snapshots, window validation, the index-based
window adjustment (`ids[start_idx:end_bound]`, where the bound is the raw
*value* `end` whenever `end == ids[-1]`), then the layered expansion
rooted at `u`.  The returned Python node/tid types are not modelled. -/
def temporalDag (g : DynGraph) (u : Nat) (v? : Option Nat)
    (start? end? : Option Int) : Except Err (TDag × List DagNode × List DagNode) :=
  let ids := temporalSnapshotIds g
  if ids.isEmpty then .ok (⟨[], []⟩, [], [])
  else
    let il := (ids.getLast?).getD 0
    let endv := end?.getD il
    let startv := start?.getD ((ids.head?).getD 0)
    let mn := (ids.min?).getD 0
    let mx := (ids.max?).getD 0
    if startv < mn || startv > endv || endv > mx || startv > mx then
      .error .outOfRange
    else
      let sIdx := ids.findIdx (fun i => decide (startv ≤ i))
      let endB : Int := if endv = il then endv else (ids.findIdx (fun i => decide (endv < i)) : Int)
      let ids2 := pySlice ids sIdx endB
      let st := ids2.foldl (dagTidStep g u v?)
        ⟨⟨[], [DagNode.base u]⟩, [], [], [DagNode.base u]⟩
      .ok (st.dg, st.sources, st.targets)

/-- Successor list of a DAG node. -/
def successorsOf (E : List (DagNode × DagNode)) (x : DagNode) : List DagNode :=
  E.filterMap (fun p => if p.1 = x then some p.2 else none)

/-- Depth-first enumeration of the simple paths reaching `tgt`; `acc` holds
the path so far in reverse, `fuel` bounds the recursion depth (any bound
of at least the number of DAG nodes is exact, since simple paths never
revisit a node). -/
def simplePathsGo (E : List (DagNode × DagNode)) (tgt : DagNode) :
    Nat → DagNode → List DagNode → List (List DagNode)
  | 0, _, _ => []
  | fuel + 1, cur, acc =>
      if cur = tgt then [acc.reverse]
      else
        (((successorsOf E cur).filter (fun nb => decide (nb ∉ acc))).map
          (fun nb => simplePathsGo E tgt fuel nb (nb :: acc))).flatten

/-- `nx.all_simple_paths(DAG, s, t)` as consumed by
`time_respecting_paths` (empty for `s = t`, as networkx yields nothing). -/
def allSimplePaths (d : TDag) (s t : DagNode) : List (List DagNode) :=
  if s = t then [] else simplePathsGo d.edges t (d.dnodes.length + 1) s [s]

/-- A decoded time-respecting path: `(from, to, snapshot)` triples. -/
abbrev IPath := List (Nat × Nat × Int)

/-- Decoding of one DAG path into interactions (paths.py lines 176-194):
each consecutive copy pair becomes a triple taking the snapshot of the
second copy. -/
def decodePath (p : List DagNode) : IPath :=
  (p.zip p.tail).map (fun q => (dagName q.1, dagName q.2, dagTime q.2))

/-- `time_respecting_paths(G, u, v, start, end)` (paths.py lines 122-195)
at the default `sample=1` (the subsampling branch `sample < 1` is not
exercised by any claim): `[]` when `u` is absent at `start`, otherwise all
decoded simple DAG paths over every source/target pair. -/
def timeRespectingPaths (g : DynGraph) (u : Nat) (v? : Option Nat)
    (s? e? : Option Int) : Except Err (List IPath) :=
  if !hasNodeAt g u s? then .ok []
  else
    match temporalDag g u v? s? e? with
    | .error er => .error er
    | .ok (d, srcs, tgts) =>
      let pairs := srcs.foldr (fun x acc => tgts.map (fun y => (x, y)) ++ acc) []
      .ok ((pairs.map (fun pr => (allSimplePaths d pr.1 pr.2).map decodePath)).flatten)

/-- Association-list update with node-pair keys (for the result dict of
`all_time_respecting_paths`). -/
def aSetPair {β : Type} (l : List ((Nat × Nat) × β)) (k : Nat × Nat) (b : β) :
    List ((Nat × Nat) × β) :=
  match l with
  | [] => [(k, b)]
  | (k', b') :: rest =>
      if k' = k then (k, b) :: rest else (k', b') :: aSetPair rest k b

/-- Association-list lookup with node-pair keys. -/
def aGetPair {β : Type} (l : List ((Nat × Nat) × β)) (k : Nat × Nat) : Option β :=
  match l with
  | [] => none
  | (k', b) :: rest => if k' = k then some b else aGetPair rest k

/-- Node loop of `all_time_respecting_paths` (paths.py lines 234-243):
for each root `u`, stores under `(u, last interaction's target)` the whole
path list of `u` (exactly the source's `res[(u, v)] = paths`). -/
def allTRPgo (g : DynGraph) (s? e? : Option Int) :
    List Nat → List ((Nat × Nat) × List IPath) →
    Except Err (List ((Nat × Nat) × List IPath))
  | [], res => .ok res
  | u :: rest, res =>
      match timeRespectingPaths g u none s? e? with
      | .error er => .error er
      | .ok paths =>
          let res' :=
            if paths.isEmpty then res
            else paths.foldl
              (fun r path => aSetPair r (u, ((path.getLast?).getD (0, 0, 0)).2.1) paths) res
          allTRPgo g s? e? rest res'

/-- `all_time_respecting_paths(G, start, end, sample=1, min_t)` (paths.py
lines 198-243): roots the search at every node present at `min_t`. -/
def allTimeRespectingPaths (g : DynGraph) (s? e? minT : Option Int) :
    Except Err (List ((Nat × Nat) × List IPath)) :=
  allTRPgo g s? e? (nodesAt g minT) []

/-- `path_length(path)` (paths.py lines 326-357). -/
def pathLength (p : IPath) : Nat := p.length

/-- Last interaction's timestamp, `path[-1][-1]` (the arrival time). -/
def lastSnap (p : IPath) : Int := ((p.getLast?).getD (0, 0, 0)).2.2

/-- `path_duration(path)` (paths.py lines 360-391):
`path[-1][-1] - path[0][-1]`. -/
def pathDuration (p : IPath) : Int := lastSnap p - (((p.head?).getD (0, 0, 0)).2.2)

/-- One argmin accumulator of the classification loop of `annotate_paths`
(paths.py lines 289-310): the three category lists are maintained by one
pass over `paths`, each with an independent best-value/list pair; this is
that single accumulator for one measure `f`. -/
def minFold (f : IPath → Int) (paths : List IPath) : Option Int × List IPath :=
  paths.foldl
    (fun acc p =>
      match acc.1 with
      | none => (some (f p), [p])
      | some b =>
          if f p < b then (some (f p), [p])
          else if f p = b then (acc.1, acc.2 ++ [p])
          else acc)
    (none, [])

/-- Keep-first deduplication: the key order of the Python dicts
`{tuple(path): ...}` built over a path list. -/
def dedupFirst : List IPath → List IPath
  | [] => []
  | p :: rest => p :: dedupFirst (rest.filter (fun q => decide (q ≠ p)))
termination_by l => l.length
decreasing_by
  simp only [List.length_cons]
  exact Nat.lt_succ_of_le (List.length_filter_le _ _)

/-- Result record of `annotate_paths`. -/
structure Annotated where
  shortest : List IPath
  fastest : List IPath
  foremost : List IPath
  fastestShortest : List IPath
  shortestFastest : List IPath
deriving DecidableEq

/-- `annotate_paths(paths)` (paths.py lines 246-323).  `none` models the
exceptions Python raises on an empty path set (`min()` of nothing /
iterating `None`) or on an empty member path (`path[-1]` out of range).
The secondary categories first deduplicate the primary list through a
tuple-keyed dict and then keep the entries attaining the minimum. -/
def annotatePaths (paths : List IPath) : Option Annotated :=
  if paths.isEmpty || paths.any (fun p => p.isEmpty) then none
  else
    let sh := (minFold (fun p => (pathLength p : Int)) paths).2
    let fa := (minFold pathDuration paths).2
    let fo := (minFold lastSnap paths).2
    let shD := dedupFirst sh
    let minDur := ((shD.map pathDuration).min?).getD 0
    let faD := dedupFirst fa
    let minLen := ((faD.map (fun p => (pathLength p : Int))).min?).getD 0
    some ⟨sh, fa, fo,
      shD.filter (fun p => pathDuration p = minDur),
      faD.filter (fun p => (pathLength p : Int) = minLen)⟩

/-- The `path_type` selector of `delta_conformity`. -/
inductive PathType where
  | shortest
  | fastest
  | foremost
  | fastestShortest
  | shortestFastest

/-- `annotated[path_type]`. -/
def Annotated.select (a : Annotated) : PathType → List IPath
  | .shortest => a.shortest
  | .fastest => a.fastest
  | .foremost => a.foremost
  | .fastestShortest => a.fastestShortest
  | .shortestFastest => a.shortestFastest

/-- Python floats are modelled by exact integer fractions, kept
unnormalized (the value of `⟨n, d⟩` is `n / d`); the source only ever
compares these quantities against zero, which is a pure sign test, so no
normalization is needed anywhere. -/
structure Frac where
  n : Int
  d : Int
deriving DecidableEq

/-- Embed an integer. -/
def Frac.ofInt (z : Int) : Frac := ⟨z, 1⟩

/-- Embed a natural number. -/
def Frac.ofNat (k : Nat) : Frac := ⟨(k : Int), 1⟩

/-- Fraction addition. -/
def fadd (a b : Frac) : Frac := ⟨a.n * b.d + b.n * a.d, a.d * b.d⟩

/-- Fraction multiplication. -/
def fmul (a b : Frac) : Frac := ⟨a.n * b.n, a.d * b.d⟩

/-- Fraction negation. -/
def fneg (a : Frac) : Frac := ⟨-a.n, a.d⟩

/-- Fraction subtraction. -/
def fsub (a b : Frac) : Frac := fadd a (fneg b)

/-- Fraction division. -/
def fdiv (a b : Frac) : Frac := ⟨a.n * b.d, a.d * b.n⟩

/-- Is the fraction strictly positive?  (A pure sign test.) -/
def fpos (a : Frac) : Bool := decide (0 < a.n * a.d)

/-- Is the fraction strictly negative? -/
def fnegative (a : Frac) : Bool := decide (a.n * a.d < 0)

/-- Absolute value. -/
def fabs (a : Frac) : Frac := ⟨(a.n.natAbs : Int), (a.d.natAbs : Int)⟩

/-- Natural power by iterated multiplication. -/
def fpowNat (q : Frac) : Nat → Frac
  | 0 => ⟨1, 1⟩
  | k + 1 => fmul q (fpowNat q k)

/-- Python `base ** exponent` for an integer exponent. -/
def fpowInt (q : Frac) (z : Int) : Frac :=
  if 0 ≤ z then fpowNat q z.toNat else ⟨(fpowNat q (-z).toNat).d, (fpowNat q (-z).toNat).n⟩

/-- Sum of a list of fractions. -/
def fsum : List Frac → Frac
  | [] => ⟨0, 1⟩
  | a :: r => fadd a (fsum r)

/-- The rational value of a fraction, for range statements. -/
def Frac.val (a : Frac) : ℚ := (a.n : ℚ) / (a.d : ℚ)

/-- The `hierarchies` argument of `delta_conformity`: label name to a dict
of label value positions (numbers, modelled as fractions). -/
abbrev Hier := List (Nat × List (Nat × Frac))

/-- `g._node[n][lab]`, `none` for the `KeyError` on a missing node or
attribute. -/
def attrOf (g : DynGraph) (n lab : Nat) : Option AttrVal :=
  (aGet g.nodeAttrs n).bind (fun d => aGet d lab)

/-- `__distance(label, v1, v2, hierarchies)` (assortativity.py lines
65-76): `-1` without a hierarchy for the label, otherwise the negated
normalized position distance.  `none` models the `KeyError` on a value
missing from the hierarchy and the `ZeroDivisionError` of a one-entry
hierarchy. -/
def labDistance (lab v1 v2 : Nat) (hier : Option Hier) : Option Frac :=
  match hier with
  | none => some ⟨-1, 1⟩
  | some h =>
    match aGet h lab with
    | none => some ⟨-1, 1⟩
    | some hm =>
      match aGet hm v1, aGet hm v2 with
      | some q1, some q2 =>
          if hm.length ≤ 1 then none
          else some (fdiv (fneg (fabs (fsub q1 q2))) (fsub (Frac.ofNat hm.length) ⟨1, 1⟩))
      | _, _ => none

/-- Inner body of the `for v in nodes` loop of `__label_frequency`
(assortativity.py lines 43-59) once the label value `av` of `v` has been
resolved: the hierarchy-aware indicator, the local-homogeneity weight over
the neighbors of `v` at its own arrival snapshot (floored to 1 when not
positive), and the `sgn[v]` dict entry. -/
def lfSgnEntry (g : DynGraph) (lab : Nat) (hier : Option Hier)
    (tDist : List (Nat × Int)) (au : Nat) (acc : List (Nat × Frac)) (v av : Nat) :
    Option (List (Nat × Frac)) := do
  let base ← if au = av then some (⟨1, 1⟩ : Frac) else labDistance lab au av hier
  let tv := (aGet tDist v).getD 0
  let vn := neighborsAt g v (some tv)
  let cnt ← vn.foldlM (fun (c : Nat) x => do
      let ax0 ← attrOf g x lab
      let ax ← (match ax0 with | .stat y => some y | .dyn m => aGetI m tv)
      pure (if ax = av then c + 1 else c)) 0
  let f1 : Frac := if 0 < vn.length then fdiv (Frac.ofNat cnt) (Frac.ofNat vn.length) else ⟨0, 1⟩
  let f2 : Frac := if fpos f1 then f1 else ⟨1, 1⟩
  pure (aSet acc v (fmul base f2))

/-- One label iteration of `__label_frequency` (assortativity.py lines
23-60): resolve the label value of `u` (snapshot-indexed dicts are read at
`start`), build the `sgn` dict over `nodes` (time-varying values missing
at the arrival snapshot are skipped by `continue`), and multiply the
accumulator by the averaged sum. -/
def lfOneLabel (g : DynGraph) (u : Nat) (nodes : List Nat) (hier : Option Hier)
    (tDist : List (Nat × Int)) (start : Int) (s : Frac) (lab : Nat) : Option Frac := do
  let au0 ← attrOf g u lab
  let au ← (match au0 with | .stat x => some x | .dyn m => aGetI m start)
  let sgn ← nodes.foldlM (fun acc v => do
      let av0 ← attrOf g v lab
      match av0 with
      | .stat av => lfSgnEntry g lab hier tDist au acc v av
      | .dyn m =>
          let tv := (aGet tDist v).getD 0
          match aGetI m tv with
          | none => pure acc
          | some av => lfSgnEntry g lab hier tDist au acc v av) []
  if nodes.length = 0 then none
  else pure (fmul s (fdiv (fsum (sgn.map Prod.snd)) (Frac.ofNat nodes.length)))

/-- `__label_frequency(g, u, nodes, labels, hierarchies, t_dist, start)`
(assortativity.py lines 11-62). -/
def labelFrequency (g : DynGraph) (u : Nat) (nodes labels : List Nat)
    (hier : Option Hier) (tDist : List (Nat × Int)) (start : Int) : Option Frac :=
  labels.foldlM (lfOneLabel g u nodes hier tDist start) ⟨1, 1⟩

/-- `__remap_path_distances` (assortativity.py lines 96-108): dense ranks
1, 2, 3, … assigned by increasing distinct reach time. -/
def remapPathDistances (td : List (Nat × Int)) : List (Nat × Int) :=
  let sortedD := List.insertionSort (fun a b => a ≤ b) (td.map Prod.snd).dedup
  td.map (fun p => (p.1, ((sortedD.findIdx (fun x => decide (x = p.2))) : Int) + 1))

/-- The normalization constant of `__normalize` (assortativity.py line
88): `sum(d ** -alpha for d in range(1, max_dist + 1))`, with integer
damping factors. -/
def normFactor (alpha maxDist : Int) : Frac :=
  fsum ((List.range maxDist.toNat).map (fun i => fpowInt (Frac.ofNat (i + 1)) (-alpha)))

/-- Result dict of `delta_conformity`: damping factor, then label profile,
then node, to the accumulated score. -/
abbrev ConfRes := List (Int × List (List Nat × List (Nat × Frac)))

/-- Association-list lookup keyed by a label profile. -/
def aGetL {β : Type} (l : List (List Nat × β)) (k : List Nat) : Option β :=
  match l with
  | [] => none
  | (k', b) :: rest => if k' = k then some b else aGetL rest k

/-- Association-list update keyed by a label profile. -/
def aSetL {β : Type} (l : List (List Nat × β)) (k : List Nat) (b : β) :
    List (List Nat × β) :=
  match l with
  | [] => [(k, b)]
  | (k', b') :: rest => if k' = k then (k, b) :: rest else (k', b') :: aSetL rest k b

/-- `res[alpha][profile][node]`. -/
def res3Get (r : ConfRes) (a : Int) (p : List Nat) (n : Nat) : Option Frac :=
  ((aGetI r a).bind (fun i => aGetL i p)).bind (fun i => aGet i n)

/-- `res[alpha][profile][node] = q` (all keys exist on every modelled
call, since the dict is pre-initialized over alphas, profiles and nodes). -/
def res3Set (r : ConfRes) (a : Int) (p : List Nat) (n : Nat) (q : Frac) : ConfRes :=
  let i1 := (aGetI r a).getD []
  let i2 := (aGetL i1 p).getD []
  aSetI r a (aSetL i1 p (aSet i2 n q))

/-- `itertools.combinations(l, k)` in its index-lexicographic order. -/
def combos : Nat → List Nat → List (List Nat)
  | 0, _ => [[]]
  | _ + 1, [] => []
  | k + 1, x :: xs => (combos k xs).map (fun c => x :: c) ++ combos (k + 1) xs

/-- The initial result dict (assortativity.py line 160): zero for every
damping factor, profile and node present at `start`. -/
def initRes (alphas : List Int) (profiles : List (List Nat)) (ns : List Nat) :
    ConfRes :=
  alphas.foldl
    (fun r a =>
      aSetI r a (profiles.foldl
        (fun pr p => aSetL pr p (ns.foldl (fun m n => aSet m n (⟨0, 1⟩ : Frac)) [])) []))
    []

/-- The reach-time dict construction (assortativity.py lines 171-175):
for each stored pair, the minimum over the arrival times of the
`path_type`-selected annotated paths. -/
def tDistBuild (sp : List ((Nat × Nat) × List IPath)) (pt : PathType) :
    Option (List (Nat × List (Nat × Int))) :=
  sp.foldlM (fun acc kv => do
      let ann ← annotatePaths kv.2
      let m ← ((ann.select pt).map lastSnap).min?
      let inner := (aGet acc kv.1.1).getD []
      pure (aSet acc kv.1.1 (aSet inner kv.1.2 m))) []

/-- `__normalize(u, scores, max_dist, alphas)` (assortativity.py lines
79-93): divides the entry of `u` under every profile of every damping
factor by the normalization constant. -/
def normalizeU (u : Nat) (res : ConfRes) (maxDist : Int) (alphas : List Int) :
    ConfRes :=
  alphas.foldl
    (fun r alpha =>
      let norm := normFactor alpha maxDist
      let inner := (aGetI r alpha).getD []
      aSetI r alpha (inner.map (fun pp =>
        (pp.1,
          match aGet pp.2 u with
          | some q => aSet pp.2 u (fdiv q norm)
          | none => pp.2))))
    res

/-- Per-node body of the main loop of `delta_conformity` (assortativity.py
lines 181-201): group the reachable nodes of `u` by hop rank, accumulate
the damped similarity of every non-zero rank into the result dict, and
normalize the scores of `u` when anything was reachable. -/
def confUStep (g2 : DynGraph) (profiles : List (List Nat)) (alphas : List Int)
    (hier : Option Hier) (tDistances dists : List (Nat × List (Nat × Int)))
    (start : Int) (res : ConfRes) (u : Nat) : Option ConfRes := do
  let spu := (aGet dists u).getD []
  let groups := spu.foldl
    (fun (gacc : List (Int × List Nat)) p =>
      aSetI gacc p.2 (((aGetI gacc p.2).getD []) ++ [p.1])) []
  let res2 ← groups.foldlM
    (fun r dg =>
      if dg.1 ≠ 0 then
        profiles.foldlM
          (fun r2 profile => do
            let sim ← labelFrequency g2 u dg.2 profile hier
              ((aGet tDistances u).getD []) start
            pure (alphas.foldl
              (fun r3 alpha =>
                res3Set r3 alpha profile u
                  (fadd ((res3Get r3 alpha profile u).getD ⟨0, 1⟩)
                    (fdiv sim (fpowInt (Frac.ofInt dg.1) alpha))))
              r2))
          r
      else pure r)
    res
  if groups.isEmpty then pure res2
  else pure (normalizeU u res2 (((groups.map Prod.fst).max?).getD 0) alphas)

/-- `delta_conformity(dg, start, delta, alphas, labels, profile_size,
hierarchies, path_type)` (assortativity.py lines 111-203), with integer
damping factors and `sample=1`.  The outer `none` models a raised
exception (invalid arguments, or any error propagating from the helpers);
`some none` models the explicit `return None` on an empty sliced store. -/
def deltaConformity (dg : DynGraph) (start delta : Int) (alphas : List Int)
    (labels : List Nat) (profileSize : Nat) (hier : Option Hier)
    (pt : PathType) : Option (Option ConfRes) :=
  if labels.length < profileSize then none
  else if alphas.isEmpty || labels.isEmpty then none
  else
    let profiles := (List.range profileSize).foldl
      (fun acc i => acc ++ combos (i + 1) labels) []
    match timeSlice dg start (some (start + delta)) with
    | .error _ => none
    | .ok g2 =>
      let res0 := initRes alphas profiles (nodesAt g2 (some start))
      let tids := temporalSnapshotIds g2
      if tids.isEmpty then some none
      else
        let mid := (tids.max?).getD 0
        let mmid := (tids.min?).getD 0
        match allTimeRespectingPaths g2 (some (max start mmid))
            (some (min mid (delta + start))) (some mmid) with
        | .error _ => none
        | .ok sp =>
          match tDistBuild sp pt with
          | none => none
          | some td =>
            let dists := td.map (fun p => (p.1, remapPathDistances p.2))
            match (nodesAt g2 (some start)).foldlM
                (confUStep g2 profiles alphas hier td dists start) res0 with
            | none => none
            | some resF => some (some resF)

/-- `nx.Graph.add_node(n, key=value)`: creates the node (with its `_adj`
slot) when new, otherwise updates its attribute dict. -/
def addNodeAttr (g : DynGraph) (n lab : Nat) (v : AttrVal) : DynGraph :=
  if n ∈ g.nodes then
    { g with nodeAttrs :=
        g.nodeAttrs.map (fun p => if p.1 = n then (n, aSet p.2 lab v) else p) }
  else
    { g with nodeAttrs := g.nodeAttrs ++ [(n, [(lab, v)])], adj := g.adj ++ [(n, [])] }

/-- Does some interval of the timeline cover the snapshot id `x`? -/
def coversTlB (tl : Timeline) (x : Int) : Bool :=
  tl.any (fun iv => decide (iv.1 ≤ x) && decide (x ≤ iv.2))

/-- Is `x` covered by some interval of some edge of the registry? -/
def coversB (r : EdgeReg) (x : Int) : Bool := r.any (fun p => coversTlB p.2 x)

/-- Does some interval of the timeline intersect the window `[a, b]`
(the negation of the skip condition of `time_slice`)? -/
def tlIntersectsB (tl : Timeline) (a b : Int) : Bool :=
  tl.any (fun iv => !(decide (b < iv.1) || decide (a > iv.2)))

/-- The interval list invariant claimed by the specification: every
interval is well formed (`s ≤ e`) and consecutive intervals are disjoint
and strictly increasing. -/
def tlStrict : Timeline → Bool
  | [] => true
  | [iv] => decide (iv.1 ≤ iv.2)
  | iv :: iv' :: r => decide (iv.1 ≤ iv.2) && decide (iv.2 < iv'.1) && tlStrict (iv' :: r)

/-- Non-decreasing interval starts. -/
def tlStartsMono : Timeline → Bool
  | [] => true
  | [_] => true
  | iv :: iv' :: r => decide (iv.1 ≤ iv'.1) && tlStartsMono (iv' :: r)

/-- Non-decreasing check on a bare list of starts. -/
def startsMonoL : List Int → Bool
  | [] => true
  | [_] => true
  | a :: b :: r => decide (a ≤ b) && startsMonoL (b :: r)

/-- The invariant the code actually maintains for well-formed calls:
a non-empty list of well-formed intervals with non-decreasing starts. -/
def tlWeakOk (tl : Timeline) : Bool :=
  !tl.isEmpty && tl.all (fun iv => decide (iv.1 ≤ iv.2)) && tlStartsMono tl

/-- Every edge timeline of the store satisfies `tlWeakOk`. -/
def wfTimelines (g : DynGraph) : Prop :=
  ∀ p ∈ g.tl, tlWeakOk p.2 = true

/-- A well-formed call: the timestamp is present and the vanishing time,
when given, lies strictly after the appearance time (so the recorded span
`[t, e-1]` is a real closed interval). -/
def wfCallB : Call → Bool
  | (_, _, some t, some e) => decide (t < e)
  | (_, _, some _, none) => true
  | (_, _, none, _) => false

/-- Total inner-dict size of `_adj`, the value of
`sum(self.degree().values())` (each undirected edge counted from both
endpoints, each self-loop once). -/
def sumDeg (a : Adj) : Nat := a.foldl (fun acc p => acc + p.2.length) 0

/-- Drop-in check of the time-respecting shape of a decoded path: every
consecutive pair of triples chains (`to` equals the next `from`) with
non-decreasing snapshot ids. -/
def chainOkB (p : IPath) : Bool :=
  (p.zip p.tail).all (fun q => decide (q.1.2.1 = q.2.1) && decide (q.1.2.2 ≤ q.2.2.2))

/-- The scenario store of the specification and of
`test_algorithms.get_network`, with `A, B, C, D` encoded as `0, 1, 2, 3`:
interactions `(A,B,1,4), (B,D,2,5), (A,C,4,8), (B,D,2,4), (B,C,6,10),
(A,B,7,9)`. -/
def gScen : DynGraph :=
  (applyCalls (DynGraph.empty true)
    [(0, 1, some 1, some 4), (1, 3, some 2, some 5), (0, 2, some 4, some 8),
     (1, 3, some 2, some 4), (1, 2, some 6, some 10), (0, 1, some 7, some 9)]).getD
    (DynGraph.empty true)

/-- The path list computed by `time_respecting_paths(g, "D", "C", start=2,
end=9)` on the scenario store. -/
def scenPaths : List IPath :=
  ((timeRespectingPaths gScen 3 (some 2) (some 2) (some 9)).toOption).getD []

/-- Failing input of the conformity range claim: two nodes labelled with
distinct values of attribute `0` and one interaction spanning `[1, 2]`. -/
def gBug : DynGraph :=
  (addInteraction
    (addNodeAttr (addNodeAttr (DynGraph.empty true) 0 0 (.stat 0)) 1 0 (.stat 1))
    0 1 (some 1) (some 3)).1

/-- A syntactically valid hierarchy whose two positions are `0` and `100`:
`{'label0': {'value0': 0, 'value1': 100}}`. -/
def hierBug : Hier := [(0, [(0, ⟨0, 1⟩), (1, ⟨100, 1⟩)])]

/-- One score read off the dictionary returned by `delta_conformity`:
`none` when the call raised or returned `None`, or when the
(alpha, profile, node) key is absent. -/
def deltaConformityScore (dg : DynGraph) (start delta : Int) (alphas : List Int)
    (labels : List Nat) (profileSize : Nat) (hier : Option Hier) (pt : PathType)
    (a : Int) (p : List Nat) (n : Nat) : Option Frac :=
  match deltaConformity dg start delta alphas labels profileSize hier pt with
  | some (some r) => res3Get r a p n
  | _ => none

/-- The snapshot-index consistency property: the keys of `snapshots` are
exactly the snapshot ids covered by some interval of some edge. -/
def StoreCov (g : DynGraph) : Prop :=
  ∀ x : Int, x ∈ g.snaps.map Prod.fst ↔ coversB g.tl x = true

/-- An accumulative store (`edge_removal=False`) holding the single
interaction `add_interaction(1, 2, t=5)`. -/
def gAcc : DynGraph :=
  (applyCalls (DynGraph.empty false) [(1, 2, some 5, none)]).getD (DynGraph.empty false)

/-- A removal store holding `add_interaction(0, 1, t=5, e=8)`, used to
exhibit the ledger residue left behind by an ordering-violation raise. -/
def gErr : DynGraph :=
  (applyCalls (DynGraph.empty true) [(0, 1, some 5, some 8)]).getD (DynGraph.empty true)

/-- The store reached by `add_interaction(0, 1, t=1, e=6)` followed by
`add_interaction(0, 1, t=3)`: its edge timeline holds two overlapping
intervals. -/
def gOvl : DynGraph :=
  (applyCalls (DynGraph.empty true)
    [(0, 1, some 1, some 6), (0, 1, some 3, none)]).getD (DynGraph.empty true)

/-- The store reached by `add_interaction(0, 1, t=4)` followed by the
error-free call `add_interaction(0, 1, t=5, e=4)`: its only timeline is
the empty interval `[4, 3]`, yet snapshot `4` stays in the index. -/
def gSnapBug : DynGraph :=
  (applyCalls (DynGraph.empty true)
    [(0, 1, some 4, none), (0, 1, some 5, some 4)]).getD (DynGraph.empty true)

/-- The store holding the single flat interaction
`add_interaction(0, 1, t=5)`, input of the `time_slice` bug exhibit. -/
def gSlice : DynGraph :=
  (applyCalls (DynGraph.empty true) [(0, 1, some 5, none)]).getD (DynGraph.empty true)

/-- The slice `gSlice.time_slice(5, 5)`. -/
def hSlice : DynGraph :=
  ((timeSlice gSlice 5 (some 5)).toOption).getD (DynGraph.empty true)

/-- The store reached by the single well-formed call
`add_interaction(0, 1, t=1, e=3)`, witness input for the snapshot-index
consistency theorem. -/
def gCov : DynGraph :=
  (applyCalls (DynGraph.empty true) [(0, 1, some 1, some 3)]).getD (DynGraph.empty true)

/-! ## Lemmas and theorems -/

/-- C10: with a single node `u` specified and `v` omitted,
`number_of_interactions` falls through every branch and returns Python
`None` (neither a count nor an error), for every store and every optional
timestamp. -/
theorem numberOfInteractions_single_node_none (g : DynGraph) (u : Nat)
    (t? : Option Int) : numberOfInteractions g (some u) none t? = .ok none := by
  cases t? <;> rfl

/-- C9: on a store with no recorded snapshot ids, `temporal_dag` returns
an empty DAG with empty source and target lists for every root, target
and window, without reaching the out-of-range check. -/
theorem temporalDag_no_snapshots (g : DynGraph)
    (h : temporalSnapshotIds g = []) (u : Nat) (v? : Option Nat)
    (s? e? : Option Int) :
    temporalDag g u v? s? e? = .ok (⟨[], []⟩, [], []) := by
  unfold temporalDag
  rw [h]
  rfl

/-- Witness for C9 at a concrete store and window. -/
theorem temporalDag_no_snapshots_witness :
    temporalSnapshotIds (DynGraph.empty true) = [] ∧
      temporalDag (DynGraph.empty true) 0 (some 1) (some 5) (some 9) =
        .ok (⟨[], []⟩, [], []) :=
  ⟨rfl, temporalDag_no_snapshots (DynGraph.empty true) rfl 0 (some 1) (some 5) (some 9)⟩

set_option maxRecDepth 200000 in
/-- C5 (counterexample): on the scenario store the exact call of the claim,
`time_respecting_paths(g, "D", "C", start=1, end=9)`, returns the empty
path list: `D` has no interaction at snapshot 1 (its edge to `B` starts at
snapshot 2), so the `has_node(u, start)` guard fires. -/
theorem timeRespectingPaths_scenario_start1_empty :
    timeRespectingPaths gScen 3 (some 2) (some 1) (some 9) = .ok [] ∧
      hasNodeAt gScen 3 (some 1) = false := by
  exact ⟨rfl, rfl⟩

set_option maxRecDepth 200000 in
/-- C5 (amended): rooting the query at the first snapshot where `D` is
present, `time_respecting_paths(g, "D", "C", start=2, end=9)` returns at
least one path, and every returned path is a list of `(from, to, snapshot)`
triples whose snapshots are non-decreasing and whose endpoints chain. -/
theorem timeRespectingPaths_scenario_start2 :
    timeRespectingPaths gScen 3 (some 2) (some 2) (some 9) = .ok scenPaths ∧
      scenPaths ≠ [] ∧ scenPaths.all chainOkB = true := by
  refine ⟨rfl, by decide, by decide⟩

set_option maxRecDepth 400000 in
/-- C8 (failing input): `delta_conformity` on a two-node store whose
hierarchy positions are `0` and `100` returns a score dictionary whose
entry for node `0` (damping factor 1, profile `['label 0']`) is `-100`,
far outside the documented range `[-1, 1]`. -/
theorem deltaConformity_score_out_of_range :
    ∃ q : Frac, deltaConformityScore gBug 1 1 [1] [0] 1 (some hierBug)
        PathType.shortest 1 [0] 0 = some q ∧ q.val < -1 := by
  refine ⟨⟨-100, 1⟩, by decide, by norm_num [Frac.val]⟩

/-- State of the running argmin accumulator after part of the pass: the
best value only improves, every later element is bounded below by it, and
the kept list holds exactly the initial list (when the best never moved)
together with the processed ties at the final best. -/
theorem minFold_go (f : IPath → Int) (l : List IPath) :
    ∀ (b : Int) (acc : List IPath), acc ≠ [] →
    ∃ b' acc',
      List.foldl
        (fun acc p =>
          match acc.1 with
          | none => (some (f p), [p])
          | some b =>
              if f p < b then (some (f p), [p])
              else if f p = b then (acc.1, acc.2 ++ [p])
              else acc)
        (some b, acc) l = (some b', acc') ∧
      acc' ≠ [] ∧ b' ≤ b ∧ (∀ q ∈ l, b' ≤ f q) ∧
      (∀ p, p ∈ acc' ↔ (b' = b ∧ p ∈ acc) ∨ (p ∈ l ∧ f p = b')) := by
  induction l with
  | nil =>
    intro b acc hacc
    exact ⟨b, acc, rfl, hacc, le_refl b, by simp, by simp⟩
  | cons x l ih =>
    intro b acc hacc
    simp only [List.foldl_cons]
    by_cases h1 : f x < b
    · simp only [if_pos h1]
      obtain ⟨b', acc', heq, hne, hle, hall, hmem⟩ := ih (f x) [x] (by simp)
      refine ⟨b', acc', heq, hne, by omega, ?_, ?_⟩
      · intro q hq
        rcases List.mem_cons.mp hq with hq | hq
        · subst hq; omega
        · exact hall q hq
      · intro p
        rw [hmem p]
        constructor
        · rintro (⟨hb, hp⟩ | ⟨hp, hf⟩)
          · simp only [List.mem_singleton] at hp
            subst hp
            exact Or.inr ⟨by simp, by omega⟩
          · exact Or.inr ⟨List.mem_cons_of_mem _ hp, hf⟩
        · rintro (⟨hb, _⟩ | ⟨hp, hf⟩)
          · omega
          · rcases List.mem_cons.mp hp with hp | hp
            · subst hp
              exact Or.inl ⟨by omega, by simp⟩
            · exact Or.inr ⟨hp, hf⟩
    · by_cases h2 : f x = b
      · simp only [if_neg h1, if_pos h2]
        obtain ⟨b', acc', heq, hne, hle, hall, hmem⟩ := ih b (acc ++ [x]) (by simp)
        refine ⟨b', acc', heq, hne, hle, ?_, ?_⟩
        · intro q hq
          rcases List.mem_cons.mp hq with hq | hq
          · subst hq; omega
          · exact hall q hq
        · intro p
          rw [hmem p]
          constructor
          · rintro (⟨hb, hp⟩ | ⟨hp, hf⟩)
            · rcases List.mem_append.mp hp with hp | hp
              · exact Or.inl ⟨hb, hp⟩
              · simp only [List.mem_singleton] at hp
                subst hp
                exact Or.inr ⟨by simp, by omega⟩
            · exact Or.inr ⟨List.mem_cons_of_mem _ hp, hf⟩
          · rintro (⟨hb, hp⟩ | ⟨hp, hf⟩)
            · exact Or.inl ⟨hb, List.mem_append.mpr (Or.inl hp)⟩
            · rcases List.mem_cons.mp hp with hp | hp
              · subst hp
                exact Or.inl ⟨by omega, by simp⟩
              · exact Or.inr ⟨hp, hf⟩
      · simp only [if_neg h1, if_neg h2]
        obtain ⟨b', acc', heq, hne, hle, hall, hmem⟩ := ih b acc hacc
        refine ⟨b', acc', heq, hne, hle, ?_, ?_⟩
        · intro q hq
          rcases List.mem_cons.mp hq with hq | hq
          · subst hq; omega
          · exact hall q hq
        · intro p
          rw [hmem p]
          constructor
          · rintro (⟨hb, hp⟩ | ⟨hp, hf⟩)
            · exact Or.inl ⟨hb, hp⟩
            · exact Or.inr ⟨List.mem_cons_of_mem _ hp, hf⟩
          · rintro (⟨hb, hp⟩ | ⟨hp, hf⟩)
            · exact Or.inl ⟨hb, hp⟩
            · rcases List.mem_cons.mp hp with hp | hp
              · subst hp
                omega
              · exact Or.inr ⟨hp, hf⟩

/-- The single-pass argmin collection keeps exactly the elements attaining
the minimum of `f`, in particular at least one. -/
theorem minFold_spec (f : IPath → Int) (paths : List IPath) (h : paths ≠ []) :
    ∃ b acc, minFold f paths = (some b, acc) ∧ acc ≠ [] ∧
      (∀ q ∈ paths, b ≤ f q) ∧ (∀ p, p ∈ acc ↔ p ∈ paths ∧ f p = b) := by
  match paths, h with
  | x :: l, _ =>
    obtain ⟨b', acc', heq, hne, hle, hall, hmem⟩ := minFold_go f l (f x) [x] (by simp)
    refine ⟨b', acc', ?_, hne, ?_, ?_⟩
    · simpa [minFold] using heq
    · intro q hq
      rcases List.mem_cons.mp hq with hq | hq
      · subst hq; omega
      · exact hall q hq
    · intro p
      rw [hmem p]
      constructor
      · rintro (⟨hb, hp⟩ | ⟨hp, hf⟩)
        · simp only [List.mem_singleton] at hp
          subst hp
          exact ⟨by simp, by omega⟩
        · exact ⟨List.mem_cons_of_mem _ hp, hf⟩
      · rintro ⟨hp, hf⟩
        rcases List.mem_cons.mp hp with hp | hp
        · subst hp
          exact Or.inl ⟨by omega, by simp⟩
        · exact Or.inr ⟨hp, hf⟩

/-- Tuple-keyed dicts over a path list keep exactly its members. -/
theorem dedupFirst_mem (l : List IPath) (q : IPath) :
    q ∈ dedupFirst l ↔ q ∈ l := by
  induction l using dedupFirst.induct with
  | case1 => simp [dedupFirst]
  | case2 p rest ih =>
    simp only [dedupFirst, List.mem_cons, ih, List.mem_filter]
    constructor
    · rintro (h | ⟨h, _⟩)
      · exact Or.inl h
      · exact Or.inr h
    · rintro (h | h)
      · exact Or.inl h
      · by_cases hq : q = p
        · exact Or.inl hq
        · exact Or.inr ⟨h, by simpa using hq⟩

/-- A left fold of `min` is bounded by its seed and by every element. -/
theorem foldlMin_le (ys : List Int) :
    ∀ a : Int, ys.foldl min a ≤ a ∧ ∀ y ∈ ys, ys.foldl min a ≤ y := by
  induction ys with
  | nil =>
    intro a
    exact ⟨le_refl a, by simp⟩
  | cons y ys ih =>
    intro a
    obtain ⟨h1, h2⟩ := ih (min a y)
    rw [List.foldl_cons]
    refine ⟨le_trans h1 (min_le_left a y), ?_⟩
    intro z hz
    rcases List.mem_cons.mp hz with hz | hz
    · rw [hz]
      exact le_trans h1 (min_le_right a y)
    · exact h2 z hz

/-- A left fold of `min` is its seed or one of the elements. -/
theorem foldlMin_mem (ys : List Int) :
    ∀ a : Int, ys.foldl min a = a ∨ ys.foldl min a ∈ ys := by
  induction ys with
  | nil =>
    intro a
    exact Or.inl rfl
  | cons y ys ih =>
    intro a
    rw [List.foldl_cons]
    rcases ih (min a y) with h' | h'
    · rw [h']
      rcases min_choice a y with hm | hm
      · exact Or.inl hm
      · exact Or.inr (by simp [hm])
    · exact Or.inr (List.mem_cons_of_mem _ h')

/-- The minimum of a non-empty integer list is attained and is a lower
bound. -/
theorem minList_spec (l : List Int) (h : l ≠ []) :
    ∃ m, l.min? = some m ∧ m ∈ l ∧ ∀ x ∈ l, m ≤ x := by
  match l, h with
  | x :: xs, _ =>
    refine ⟨xs.foldl min x, by simp [List.min?], ?_, ?_⟩
    · rcases foldlMin_mem xs x with h' | h'
      · rw [h']; simp
      · exact List.mem_cons_of_mem _ h'
    · intro z hz
      rcases List.mem_cons.mp hz with hz | hz
      · subst hz
        exact (foldlMin_le xs z).1
      · exact (foldlMin_le xs x).2 z hz

/-- C7: on a non-empty list of non-empty paths, `annotate_paths` returns:
non-empty `shortest`, `fastest` and `foremost` lists holding exactly the
input paths tied at the optimal length, duration and arrival time; every
`fastest_shortest` member is a `shortest` member of minimal duration among
`shortest`; every `shortest_fastest` member is a `fastest` member of
minimal length among `fastest`. -/
theorem annotatePaths_spec (paths : List IPath) (hne : paths ≠ [])
    (hnep : ∀ p ∈ paths, p ≠ []) :
    ∃ ann, annotatePaths paths = some ann ∧
      (ann.shortest ≠ [] ∧
        ∀ p, p ∈ ann.shortest ↔ p ∈ paths ∧ ∀ q ∈ paths, pathLength p ≤ pathLength q) ∧
      (ann.fastest ≠ [] ∧
        ∀ p, p ∈ ann.fastest ↔ p ∈ paths ∧ ∀ q ∈ paths, pathDuration p ≤ pathDuration q) ∧
      (ann.foremost ≠ [] ∧
        ∀ p, p ∈ ann.foremost ↔ p ∈ paths ∧ ∀ q ∈ paths, lastSnap p ≤ lastSnap q) ∧
      (∀ p ∈ ann.fastestShortest,
        p ∈ ann.shortest ∧ ∀ q ∈ ann.shortest, pathDuration p ≤ pathDuration q) ∧
      (∀ p ∈ ann.shortestFastest,
        p ∈ ann.fastest ∧ ∀ q ∈ ann.fastest, pathLength p ≤ pathLength q) := by
  obtain ⟨bL, accL, hL, hLne, hLmin, hLmem⟩ :=
    minFold_spec (fun p => (pathLength p : Int)) paths hne
  obtain ⟨bD, accD, hD, hDne, hDmin, hDmem⟩ := minFold_spec pathDuration paths hne
  obtain ⟨bR, accR, hR, hRne, hRmin, hRmem⟩ := minFold_spec lastSnap paths hne
  have hguard : (paths.isEmpty || paths.any (fun p => p.isEmpty)) = false := by
    simp only [Bool.or_eq_false_iff, List.isEmpty_eq_false, List.any_eq_false,
      List.isEmpty_iff]
    exact ⟨hne, fun p hp => hnep p hp⟩
  refine ⟨⟨accL, accD, accR,
    (dedupFirst accL).filter
      (fun p => pathDuration p = (((dedupFirst accL).map pathDuration).min?).getD 0),
    (dedupFirst accD).filter
      (fun p => (pathLength p : Int) = (((dedupFirst accD).map (fun p => (pathLength p : Int))).min?).getD 0)⟩,
    ?_, ?_, ?_, ?_, ?_, ?_⟩
  · simp only [annotatePaths, hguard, Bool.false_eq_true, if_false, hL, hD, hR]
  · refine ⟨hLne, ?_⟩
    intro p
    rw [hLmem p]
    constructor
    · rintro ⟨hp, hf⟩
      refine ⟨hp, fun q hq => ?_⟩
      have := hLmin q hq
      omega
    · rintro ⟨hp, hmin⟩
      refine ⟨hp, ?_⟩
      obtain ⟨p0, hp0⟩ := List.exists_mem_of_ne_nil accL hLne
      obtain ⟨hp0p, hp0f⟩ := (hLmem p0).mp hp0
      have h1 := hmin p0 hp0p
      have h2 := hLmin p hp
      omega
  · refine ⟨hDne, ?_⟩
    intro p
    rw [hDmem p]
    constructor
    · rintro ⟨hp, hf⟩
      refine ⟨hp, fun q hq => ?_⟩
      have := hDmin q hq
      omega
    · rintro ⟨hp, hmin⟩
      refine ⟨hp, ?_⟩
      obtain ⟨p0, hp0⟩ := List.exists_mem_of_ne_nil accD hDne
      obtain ⟨hp0p, hp0f⟩ := (hDmem p0).mp hp0
      have h1 := hmin p0 hp0p
      have h2 := hDmin p hp
      omega
  · refine ⟨hRne, ?_⟩
    intro p
    rw [hRmem p]
    constructor
    · rintro ⟨hp, hf⟩
      refine ⟨hp, fun q hq => ?_⟩
      have := hRmin q hq
      omega
    · rintro ⟨hp, hmin⟩
      refine ⟨hp, ?_⟩
      obtain ⟨p0, hp0⟩ := List.exists_mem_of_ne_nil accR hRne
      obtain ⟨hp0p, hp0f⟩ := (hRmem p0).mp hp0
      have h1 := hmin p0 hp0p
      have h2 := hRmin p hp
      omega
  · intro p hp
    simp only [List.mem_filter, decide_eq_true_eq] at hp
    obtain ⟨hpD, hpmin⟩ := hp
    have hpacc : p ∈ accL := (dedupFirst_mem accL p).mp hpD
    have hmapne : (dedupFirst accL).map pathDuration ≠ [] := by
      intro hcon
      obtain ⟨p0, hp0⟩ := List.exists_mem_of_ne_nil accL hLne
      have : p0 ∈ dedupFirst accL := (dedupFirst_mem accL p0).mpr hp0
      have : pathDuration p0 ∈ (dedupFirst accL).map pathDuration :=
        List.mem_map_of_mem _ this
      rw [hcon] at this
      exact absurd this (List.not_mem_nil _)
    obtain ⟨m, hm, _, hmle⟩ := minList_spec _ hmapne
    rw [hm] at hpmin
    simp only [Option.getD_some] at hpmin
    refine ⟨hpacc, fun q hq => ?_⟩
    have : pathDuration q ∈ (dedupFirst accL).map pathDuration :=
      List.mem_map_of_mem _ ((dedupFirst_mem accL q).mpr hq)
    have := hmle _ this
    omega
  · intro p hp
    simp only [List.mem_filter, decide_eq_true_eq] at hp
    obtain ⟨hpD, hpmin⟩ := hp
    have hpacc : p ∈ accD := (dedupFirst_mem accD p).mp hpD
    have hmapne : (dedupFirst accD).map (fun p => (pathLength p : Int)) ≠ [] := by
      intro hcon
      obtain ⟨p0, hp0⟩ := List.exists_mem_of_ne_nil accD hDne
      have : p0 ∈ dedupFirst accD := (dedupFirst_mem accD p0).mpr hp0
      have : (pathLength p0 : Int) ∈ (dedupFirst accD).map (fun p => (pathLength p : Int)) :=
        List.mem_map_of_mem _ this
      rw [hcon] at this
      exact absurd this (List.not_mem_nil _)
    obtain ⟨m, hm, _, hmle⟩ := minList_spec _ hmapne
    rw [hm] at hpmin
    simp only [Option.getD_some] at hpmin
    refine ⟨hpacc, fun q hq => ?_⟩
    have : (pathLength q : Int) ∈ (dedupFirst accD).map (fun p => (pathLength p : Int)) :=
      List.mem_map_of_mem _ ((dedupFirst_mem accD q).mpr hq)
    have := hmle _ this
    omega

/-- Witness for C7 at a concrete two-path input. -/
theorem annotatePaths_spec_witness :
    ([[(0, 1, 1), (1, 2, 5)], [(0, 2, 2)]] : List IPath) ≠ [] ∧
      ∃ ann, annotatePaths [[(0, 1, 1), (1, 2, 5)], [(0, 2, 2)]] = some ann ∧
        (ann.shortest ≠ [] ∧
          ∀ p, p ∈ ann.shortest ↔ p ∈ [[(0, 1, 1), (1, 2, 5)], [(0, 2, 2)]] ∧
            ∀ q ∈ [[(0, 1, 1), (1, 2, 5)], [(0, 2, 2)]], pathLength p ≤ pathLength q) ∧
        (ann.fastest ≠ [] ∧
          ∀ p, p ∈ ann.fastest ↔ p ∈ [[(0, 1, 1), (1, 2, 5)], [(0, 2, 2)]] ∧
            ∀ q ∈ [[(0, 1, 1), (1, 2, 5)], [(0, 2, 2)]], pathDuration p ≤ pathDuration q) ∧
        (ann.foremost ≠ [] ∧
          ∀ p, p ∈ ann.foremost ↔ p ∈ [[(0, 1, 1), (1, 2, 5)], [(0, 2, 2)]] ∧
            ∀ q ∈ [[(0, 1, 1), (1, 2, 5)], [(0, 2, 2)]], lastSnap p ≤ lastSnap q) ∧
        (∀ p ∈ ann.fastestShortest,
          p ∈ ann.shortest ∧ ∀ q ∈ ann.shortest, pathDuration p ≤ pathDuration q) ∧
        (∀ p ∈ ann.shortestFastest,
          p ∈ ann.fastest ∧ ∀ q ∈ ann.fastest, pathLength p ≤ pathLength q) :=
  ⟨by decide, annotatePaths_spec [[(0, 1, 1), (1, 2, 5)], [(0, 2, 2)]] (by decide) (by decide)⟩

/-! ### Association-list and phase frame lemmas -/

theorem aGet_append_some {β : Type} (l1 l2 : List (Nat × β)) (k : Nat) (b : β)
    (h : aGet l1 k = some b) : aGet (l1 ++ l2) k = some b := by
  induction l1 with
  | nil => simp [aGet] at h
  | cons p rest ih =>
    simp only [aGet, List.cons_append] at h ⊢
    by_cases hk : p.1 = k
    · rwa [if_pos hk] at h ⊢
    · rw [if_neg hk] at h ⊢
      exact ih h

theorem aGet_append_none {β : Type} (l1 l2 : List (Nat × β)) (k : Nat)
    (h : aGet l1 k = none) : aGet (l1 ++ l2) k = aGet l2 k := by
  induction l1 with
  | nil => rfl
  | cons p rest ih =>
    simp only [aGet, List.cons_append] at h ⊢
    by_cases hk : p.1 = k
    · rw [if_pos hk] at h
      exact absurd h (by simp)
    · rw [if_neg hk] at h ⊢
      exact ih h

theorem aGet_isSome_iff {β : Type} (l : List (Nat × β)) (k : Nat) :
    (aGet l k).isSome = true ↔ k ∈ l.map Prod.fst := by
  induction l with
  | nil => simp [aGet]
  | cons p rest ih =>
    by_cases h : p.1 = k
    · simp [aGet, h]
    · simp [aGet, h, ih, Ne.symm h]

theorem aGet_mem {β : Type} (l : List (Nat × β)) (k : Nat) (b : β)
    (h : aGet l k = some b) : (k, b) ∈ l := by
  induction l with
  | nil => simp [aGet] at h
  | cons p rest ih =>
    by_cases hk : p.1 = k
    · simp only [aGet, hk, if_pos] at h
      cases h
      have hp : p = (k, p.2) := by rw [← hk]
      rw [← hp]
      exact List.mem_cons_self _ _
    · simp only [aGet, hk, if_neg hk] at h
      exact List.mem_cons_of_mem _ (ih h)

theorem ensureNode_tl (g : DynGraph) (u : Nat) : (ensureNode g u).tl = g.tl := by
  unfold ensureNode
  split <;> rfl

theorem ensureNode_ledger (g : DynGraph) (u : Nat) :
    (ensureNode g u).ledger = g.ledger := by
  unfold ensureNode
  split <;> rfl

theorem ensureNode_snaps (g : DynGraph) (u : Nat) :
    (ensureNode g u).snaps = g.snaps := by
  unfold ensureNode
  split <;> rfl

theorem ensureNode_er (g : DynGraph) (u : Nat) :
    (ensureNode g u).edgeRemoval = g.edgeRemoval := by
  unfold ensureNode
  split <;> rfl

theorem ensureNode_of_mem (g : DynGraph) (u : Nat) (h : u ∈ g.nodes) :
    ensureNode g u = g := by
  unfold ensureNode
  rw [if_pos h]

theorem ensureNode_adjNbrs_some (g : DynGraph) (u n : Nat) (l : List Nat)
    (h : adjNbrs g.adj n = some l) : adjNbrs (ensureNode g u).adj n = some l := by
  unfold ensureNode
  by_cases hm : u ∈ g.nodes
  · rw [if_pos hm]
    exact h
  · rw [if_neg hm]
    show aGet (g.adj ++ [(u, [])]) n = some l
    exact aGet_append_some _ _ _ _ h

theorem ensureNode_adjNbrs_none (g : DynGraph) (u n : Nat)
    (h : adjNbrs g.adj n = none) :
    adjNbrs (ensureNode g u).adj n =
      if u ∈ g.nodes then none else if n = u then some [] else none := by
  unfold ensureNode
  by_cases hm : u ∈ g.nodes
  · rw [if_pos hm, if_pos hm]
    exact h
  · rw [if_neg hm, if_neg hm]
    show aGet (g.adj ++ [(u, [])]) n = _
    rw [aGet_append_none _ _ _ h]
    by_cases hnu : n = u
    · rw [if_pos hnu]
      simp [aGet, hnu]
    · rw [if_neg hnu]
      show aGet [(u, [])] n = none
      simp only [aGet]
      rw [if_neg (fun hh => hnu hh.symm)]

theorem ensureNode_hasEdge (g : DynGraph) (u a b : Nat) :
    hasEdgeB (ensureNode g u) a b = hasEdgeB g a b := by
  unfold hasEdgeB
  cases hn : adjNbrs g.adj a with
  | some l => rw [ensureNode_adjNbrs_some g u a l hn]
  | none =>
    rw [ensureNode_adjNbrs_none g u a hn]
    by_cases hm : u ∈ g.nodes
    · rw [if_pos hm]
    · rw [if_neg hm]
      by_cases hau : a = u
      · rw [if_pos hau]
        simp
      · rw [if_neg hau]

theorem ensureNode_nodes (g : DynGraph) (u : Nat) :
    (ensureNode g u).nodes = if u ∈ g.nodes then g.nodes else g.nodes ++ [u] := by
  by_cases h : u ∈ g.nodes
  · rw [ensureNode_of_mem g u h, if_pos h]
  · rw [if_neg h]
    unfold ensureNode
    rw [if_neg h]
    simp [DynGraph.nodes]

theorem ensureNode_mem_nodes (g : DynGraph) (u : Nat) :
    u ∈ (ensureNode g u).nodes := by
  rw [ensureNode_nodes]
  split
  · assumption
  · simp

theorem ensureNode_nodes_mono (g : DynGraph) (u n : Nat) (h : n ∈ g.nodes) :
    n ∈ (ensureNode g u).nodes := by
  rw [ensureNode_nodes]
  split
  · exact h
  · simp [h]

theorem aiLedgerPhase_adj (g : DynGraph) (u v : Nat) (t0 : Int) (e : Option Int) :
    (aiLedgerPhase g u v t0 e).2.adj = g.adj := by
  unfold aiLedgerPhase
  cases e <;> dsimp only <;> (repeat' split) <;> simp_all

theorem aiLedgerPhase_tl (g : DynGraph) (u v : Nat) (t0 : Int) (e : Option Int) :
    (aiLedgerPhase g u v t0 e).2.tl = g.tl := by
  unfold aiLedgerPhase
  cases e <;> dsimp only <;> (repeat' split) <;> simp_all

theorem aiLedgerPhase_snaps (g : DynGraph) (u v : Nat) (t0 : Int) (e : Option Int) :
    (aiLedgerPhase g u v t0 e).2.snaps = g.snaps := by
  unfold aiLedgerPhase
  cases e <;> dsimp only <;> (repeat' split) <;> simp_all

theorem aiLedgerPhase_nodeAttrs (g : DynGraph) (u v : Nat) (t0 : Int) (e : Option Int) :
    (aiLedgerPhase g u v t0 e).2.nodeAttrs = g.nodeAttrs := by
  unfold aiLedgerPhase
  cases e <;> dsimp only <;> (repeat' split) <;> simp_all

theorem aiLedgerPhase_er (g : DynGraph) (u v : Nat) (t0 : Int) (e : Option Int) :
    (aiLedgerPhase g u v t0 e).2.edgeRemoval = g.edgeRemoval := by
  unfold aiLedgerPhase
  cases e <;> dsimp only <;> (repeat' split) <;> simp_all

theorem aiLedgerPhase_fst (g : DynGraph) (u v : Nat) (t0 : Int) (e : Option Int) :
    (aiLedgerPhase g u v t0 e).1 =
      match e with
      | some ev => if g.edgeRemoval then ev - 1 else t0
      | none => t0 := by
  unfold aiLedgerPhase
  cases e <;> dsimp only <;> (repeat' split) <;> simp_all

theorem aiTimeline_frame (g : DynGraph) (u v : Nat) (t0 t1 : Int) :
    (aiTimeline g u v t0 t1).1.adj = g.adj ∧
    (aiTimeline g u v t0 t1).1.nodeAttrs = g.nodeAttrs ∧
    (aiTimeline g u v t0 t1).1.snaps = g.snaps ∧
    (aiTimeline g u v t0 t1).1.edgeRemoval = g.edgeRemoval := by
  unfold aiTimeline
  dsimp only
  (repeat' split) <;> simp_all

theorem aiFinish_frame (g : DynGraph) (u v : Nat) (t0 t1 : Int) (e : Option Int) :
    (aiFinish g u v t0 t1 e).nodeAttrs = g.nodeAttrs ∧
    (aiFinish g u v t0 t1 e).tl = g.tl ∧
    (aiFinish g u v t0 t1 e).ledger = g.ledger ∧
    (aiFinish g u v t0 t1 e).edgeRemoval = g.edgeRemoval := by
  unfold aiFinish
  cases e <;> simp

theorem aiFinish_adj (g : DynGraph) (u v : Nat) (t0 t1 : Int) (e : Option Int) :
    (aiFinish g u v t0 t1 e).adj = adjAddNbr (adjAddNbr g.adj u v) v u := by
  unfold aiFinish
  cases e <;> rfl

theorem aiFinish_snaps (g : DynGraph) (u v : Nat) (t0 t1 : Int) (e : Option Int) :
    (aiFinish g u v t0 t1 e).snaps =
      match e with
      | some _ => snapBumpRange g.snaps t0 t1
      | none => snapBump (snapBump g.snaps t0) t1 := by
  unfold aiFinish
  cases e <;> rfl

/-! ### Registry lemmas -/

theorem pairMatch_self (u v : Nat) : pairMatch (u, v) u v = true := by
  simp [pairMatch]

theorem pairMatch_symm (k : Nat × Nat) (u v : Nat) :
    pairMatch k u v = pairMatch k v u := by
  simp only [pairMatch]
  by_cases h1 : k.1 = u <;> by_cases h2 : k.2 = v <;> by_cases h3 : k.1 = v <;>
    by_cases h4 : k.2 = u <;> simp [h1, h2, h3, h4]

theorem pairMatch_trans (k : Nat × Nat) (u v a b : Nat)
    (h1 : pairMatch k u v = true) (h2 : pairMatch k a b = true) :
    pairMatch (u, v) a b = true := by
  simp only [pairMatch, Bool.or_eq_true, Bool.and_eq_true, decide_eq_true_eq] at h1 h2 ⊢
  rcases h1 with ⟨hu, hv⟩ | ⟨hu, hv⟩ <;> rcases h2 with ⟨ha, hb⟩ | ⟨ha, hb⟩ <;>
    subst hu <;> subst hv <;> simp_all

theorem findTl_symm (r : EdgeReg) (u v : Nat) : findTl r u v = findTl r v u := by
  induction r with
  | nil => rfl
  | cons p rest ih =>
    simp only [findTl]
    rw [pairMatch_symm p.1 u v, ih]

theorem findTl_setTl_self (r : EdgeReg) (u v : Nat) (t : Timeline) :
    findTl (setTl r u v t) u v = some t := by
  induction r with
  | nil => simp [setTl, findTl, pairMatch_self]
  | cons p rest ih =>
    simp only [setTl]
    by_cases h : pairMatch p.1 u v = true
    · rw [if_pos h]
      simp [findTl, h]
    · rw [if_neg h]
      simp only [findTl]
      rw [if_neg h]
      exact ih

theorem findTl_setTl_other (r : EdgeReg) (u v a b : Nat) (t : Timeline)
    (h : pairMatch (u, v) a b = false) :
    findTl (setTl r u v t) a b = findTl r a b := by
  induction r with
  | nil =>
    simp only [setTl, findTl]
    rw [if_neg (by simp [h])]
  | cons p rest ih =>
    simp only [setTl]
    by_cases hp : pairMatch p.1 u v = true
    · rw [if_pos hp]
      simp only [findTl]
      by_cases hq : pairMatch p.1 a b = true
      · have := pairMatch_trans p.1 u v a b hp hq
        rw [this] at h
        cases h
      · rw [if_neg hq, if_neg hq]
    · rw [if_neg hp]
      simp only [findTl]
      by_cases hq : pairMatch p.1 a b = true
      · rw [if_pos hq, if_pos hq]
      · rw [if_neg hq, if_neg hq, ih]

theorem setTl_map_fst_some (r : EdgeReg) (u v : Nat) (t app : Timeline)
    (h : findTl r u v = some app) : (setTl r u v t).map Prod.fst = r.map Prod.fst := by
  induction r with
  | nil => simp [findTl] at h
  | cons p rest ih =>
    simp only [findTl] at h
    simp only [setTl]
    by_cases hp : pairMatch p.1 u v = true
    · rw [if_pos hp]
      simp
    · rw [if_neg hp]
      rw [if_neg hp] at h
      simp [ih h]

theorem setTl_map_fst_none (r : EdgeReg) (u v : Nat) (t : Timeline)
    (h : findTl r u v = none) :
    (setTl r u v t).map Prod.fst = r.map Prod.fst ++ [(u, v)] := by
  induction r with
  | nil => rfl
  | cons p rest ih =>
    simp only [findTl] at h
    simp only [setTl]
    by_cases hp : pairMatch p.1 u v = true
    · rw [if_pos hp] at h
      cases h
    · rw [if_neg hp] at h
      rw [if_neg hp]
      simp [ih h]

theorem mem_setTl (r : EdgeReg) (u v : Nat) (t : Timeline) (p : (Nat × Nat) × Timeline)
    (h : p ∈ setTl r u v t) : p ∈ r ∨ p.2 = t := by
  induction r with
  | nil =>
    simp only [setTl, List.mem_singleton] at h
    subst h
    exact Or.inr rfl
  | cons q rest ih =>
    simp only [setTl] at h
    by_cases hq : pairMatch q.1 u v = true
    · rw [if_pos hq] at h
      rcases List.mem_cons.mp h with h | h
      · subst h
        exact Or.inr rfl
      · exact Or.inl (List.mem_cons_of_mem _ h)
    · rw [if_neg hq] at h
      rcases List.mem_cons.mp h with h | h
      · exact Or.inl (by rw [h]; exact List.mem_cons_self _ _)
      · rcases ih h with h' | h'
        · exact Or.inl (List.mem_cons_of_mem _ h')
        · exact Or.inr h'

theorem findTl_mem (r : EdgeReg) (u v : Nat) (app : Timeline)
    (h : findTl r u v = some app) :
    ∃ k, (k, app) ∈ r ∧ pairMatch k u v = true := by
  induction r with
  | nil => simp [findTl] at h
  | cons p rest ih =>
    simp only [findTl] at h
    by_cases hp : pairMatch p.1 u v = true
    · rw [if_pos hp] at h
      cases h
      exact ⟨p.1, List.mem_cons_self _ _, hp⟩
    · rw [if_neg hp] at h
      obtain ⟨k, hk, hm⟩ := ih h
      exact ⟨k, List.mem_cons_of_mem _ hk, hm⟩

theorem findTl_none_all (r : EdgeReg) (u v : Nat) (h : findTl r u v = none) :
    ∀ p ∈ r, pairMatch p.1 u v = false := by
  induction r with
  | nil => simp
  | cons p rest ih =>
    simp only [findTl] at h
    by_cases hp : pairMatch p.1 u v = true
    · rw [if_pos hp] at h
      cases h
    · rw [if_neg hp] at h
      intro q hq
      rcases List.mem_cons.mp hq with hq | hq
      · rw [hq]
        simpa using hp
      · exact ih h q hq

theorem setTl_isSome (r : EdgeReg) (u v a b : Nat) (t : Timeline) :
    (findTl (setTl r u v t) a b).isSome =
      ((findTl r a b).isSome || pairMatch (u, v) a b) := by
  by_cases h : pairMatch (u, v) a b = true
  · rw [h]
    have huv : pairMatch (a, b) u v = true := by
      simp only [pairMatch, Bool.or_eq_true, Bool.and_eq_true, decide_eq_true_eq] at h ⊢
      tauto
    have : findTl (setTl r u v t) a b = some t := by
      have h1 := findTl_setTl_self r u v t
      simp only [pairMatch, Bool.or_eq_true, Bool.and_eq_true, decide_eq_true_eq] at h
      rcases h with ⟨h1', h2'⟩ | ⟨h1', h2'⟩
      · subst h1'; subst h2'; exact h1
      · subst h1'; subst h2'
        rw [findTl_symm]
        exact h1
    simp [this]
  · rw [findTl_setTl_other r u v a b t (by simpa using h)]
    simp [h]

/-! ### Adjacency and snapshot-counter lemmas -/

theorem adjAddNbr_map_fst (a : Adj) (n m : Nat) :
    (adjAddNbr a n m).map Prod.fst = a.map Prod.fst := by
  induction a with
  | nil => rfl
  | cons p rest ih =>
    simp only [adjAddNbr]
    by_cases h : p.1 = n
    · rw [if_pos h]
      simp [h]
    · rw [if_neg h]
      simp [ih]

theorem adjAddNbr_none (a : Adj) (n m : Nat) (h : adjNbrs a n = none) :
    adjAddNbr a n m = a := by
  induction a with
  | nil => rfl
  | cons p rest ih =>
    simp only [adjNbrs, aGet] at h
    simp only [adjAddNbr]
    by_cases hp : p.1 = n
    · rw [if_pos hp] at h
      cases h
    · rw [if_neg hp] at h
      rw [if_neg hp, ih h]

theorem adjAddNbr_nbrs_self (a : Adj) (n m : Nat) (l : List Nat)
    (h : adjNbrs a n = some l) :
    adjNbrs (adjAddNbr a n m) n = some (if m ∈ l then l else l ++ [m]) := by
  induction a with
  | nil => simp [adjNbrs, aGet] at h
  | cons p rest ih =>
    simp only [adjNbrs, aGet] at h
    simp only [adjAddNbr]
    by_cases hp : p.1 = n
    · rw [if_pos hp] at h
      cases h
      rw [if_pos hp]
      simp [adjNbrs, aGet, hp]
    · rw [if_neg hp] at h
      rw [if_neg hp]
      simp only [adjNbrs, aGet, if_neg hp]
      exact ih h

theorem adjAddNbr_nbrs_other (a : Adj) (n m k : Nat) (hk : k ≠ n) :
    adjNbrs (adjAddNbr a n m) k = adjNbrs a k := by
  induction a with
  | nil => rfl
  | cons p rest ih =>
    simp only [adjAddNbr]
    by_cases hp : p.1 = n
    · rw [if_pos hp]
      simp only [adjNbrs, aGet]
      rw [if_neg (by rw [hp]; exact fun hc => hk hc.symm),
        if_neg (by rw [hp]; exact fun hc => hk hc.symm)]
    · rw [if_neg hp]
      simp only [adjNbrs, aGet]
      by_cases hq : p.1 = k
      · rw [if_pos hq, if_pos hq]
      · rw [if_neg hq, if_neg hq]
        exact ih

theorem sumDeg_cons (p : Nat × List Nat) (rest : Adj) :
    sumDeg (p :: rest) = p.2.length + sumDeg rest := by
  show List.foldl _ _ (p :: rest) = _
  rw [List.foldl_cons]
  have gen : ∀ (l : Adj) (a : Nat), List.foldl (fun acc q => acc + q.2.length) a l =
      a + List.foldl (fun acc q => acc + q.2.length) 0 l := by
    intro l
    induction l with
    | nil => intro a; simp
    | cons q rest ih =>
      intro a
      rw [List.foldl_cons, List.foldl_cons, ih (a + q.2.length), ih (0 + q.2.length)]
      omega
  rw [gen rest (0 + p.2.length)]
  show 0 + p.2.length + sumDeg rest = p.2.length + sumDeg rest
  omega

theorem sumDeg_adjAddNbr (a : Adj) (n m : Nat) (l : List Nat)
    (h : adjNbrs a n = some l) :
    sumDeg (adjAddNbr a n m) = sumDeg a + (if m ∈ l then 0 else 1) := by
  induction a with
  | nil => simp [adjNbrs, aGet] at h
  | cons p rest ih =>
    simp only [adjNbrs, aGet] at h
    simp only [adjAddNbr]
    by_cases hp : p.1 = n
    · rw [if_pos hp] at h
      cases h
      rw [if_pos hp, sumDeg_cons, sumDeg_cons]
      by_cases hm : m ∈ p.2
      · rw [if_pos hm, if_pos hm]
        dsimp only
        omega
      · rw [if_neg hm, if_neg hm]
        dsimp only
        simp only [List.length_append, List.length_cons, List.length_nil]
        omega
    · rw [if_neg hp] at h
      rw [if_neg hp, sumDeg_cons, sumDeg_cons, ih h]
      dsimp only
      omega

theorem snapBump_map_fst (s : Snaps) (t : Int) :
    (snapBump s t).map Prod.fst =
      if t ∈ s.map Prod.fst then s.map Prod.fst else s.map Prod.fst ++ [t] := by
  induction s with
  | nil => simp [snapBump]
  | cons p rest ih =>
    simp only [snapBump]
    by_cases h : p.1 = t
    · rw [if_pos h]
      simp [h]
    · rw [if_neg h]
      simp only [List.map_cons, ih]
      by_cases hm : t ∈ rest.map Prod.fst
      · rw [if_pos hm, if_pos (by simp [hm])]
      · rw [if_neg hm, if_neg (by simp [hm, h, Ne.symm h])]
        simp

theorem snapBump_mem (s : Snaps) (t x : Int) :
    x ∈ (snapBump s t).map Prod.fst ↔ x ∈ s.map Prod.fst ∨ x = t := by
  rw [snapBump_map_fst]
  by_cases h : t ∈ s.map Prod.fst
  · rw [if_pos h]
    constructor
    · exact Or.inl
    · rintro (hx | hx)
      · exact hx
      · rw [hx]; exact h
  · rw [if_neg h]
    simp

theorem snapBump_nodup (s : Snaps) (t : Int) (h : (s.map Prod.fst).Nodup) :
    ((snapBump s t).map Prod.fst).Nodup := by
  rw [snapBump_map_fst]
  by_cases hm : t ∈ s.map Prod.fst
  · rwa [if_pos hm]
  · rw [if_neg hm]
    simp [List.nodup_append, h, hm]

theorem foldl_snapBump_mem (L : List Int) :
    ∀ (s : Snaps) (x : Int),
      x ∈ (L.foldl snapBump s).map Prod.fst ↔ x ∈ s.map Prod.fst ∨ x ∈ L := by
  induction L with
  | nil => simp
  | cons t rest ih =>
    intro s x
    rw [List.foldl_cons, ih, snapBump_mem]
    simp only [List.mem_cons]
    tauto

theorem foldl_snapBump_nodup (L : List Int) :
    ∀ s : Snaps, (s.map Prod.fst).Nodup → ((L.foldl snapBump s).map Prod.fst).Nodup := by
  induction L with
  | nil => exact fun s h => h
  | cons t rest ih =>
    intro s h
    rw [List.foldl_cons]
    exact ih _ (snapBump_nodup s t h)

theorem snapBumpRange_eq_foldl (s : Snaps) (lo hi : Int) :
    snapBumpRange s lo hi =
      ((List.range (hi + 1 - lo).toNat).map (fun i : Nat => lo + (i : Int))).foldl snapBump s := by
  unfold snapBumpRange
  rw [List.foldl_map]

theorem mem_range_map (lo hi x : Int) :
    x ∈ (List.range (hi + 1 - lo).toNat).map (fun i : Nat => lo + (i : Int)) ↔
      lo ≤ x ∧ x ≤ hi := by
  simp only [List.mem_map, List.mem_range]
  constructor
  · rintro ⟨i, hi', rfl⟩
    omega
  · rintro ⟨h1, h2⟩
    exact ⟨(x - lo).toNat, by omega, by omega⟩

theorem snapBumpRange_mem (s : Snaps) (lo hi x : Int) :
    x ∈ (snapBumpRange s lo hi).map Prod.fst ↔
      x ∈ s.map Prod.fst ∨ (lo ≤ x ∧ x ≤ hi) := by
  rw [snapBumpRange_eq_foldl, foldl_snapBump_mem, mem_range_map]

theorem snapBumpRange_nodup (s : Snaps) (lo hi : Int)
    (h : (s.map Prod.fst).Nodup) :
    ((snapBumpRange s lo hi).map Prod.fst).Nodup := by
  rw [snapBumpRange_eq_foldl]
  exact foldl_snapBump_nodup _ s h

theorem hasEdgeB_iff (g : DynGraph) (u v : Nat) :
    hasEdgeB g u v = true ↔ ∃ l, adjNbrs g.adj u = some l ∧ v ∈ l := by
  unfold hasEdgeB
  cases h : adjNbrs g.adj u
  · simp
  · simp [h]

/-! ### Timeline well-formedness lemmas -/

theorem eq_dropLast_append {α : Type} (l : List α) (a : α) (h : l.getLast? = some a) :
    l = l.dropLast ++ [a] := by
  induction l with
  | nil => simp at h
  | cons x xs ih =>
    cases xs with
    | nil =>
      simp only [List.getLast?_singleton, Option.some.injEq] at h
      subst h
      rfl
    | cons y ys =>
      rw [List.getLast?_cons_cons] at h
      have h2 := ih h
      calc x :: y :: ys = x :: ((y :: ys).dropLast ++ [a]) := by rw [← h2]
        _ = (x :: y :: ys).dropLast ++ [a] := by simp [List.dropLast]

theorem mem_of_getLast {α : Type} (l : List α) (a : α) (h : l.getLast? = some a) :
    a ∈ l := by
  rw [eq_dropLast_append l a h]
  exact List.mem_append_right _ (List.mem_singleton.mpr rfl)

theorem tlStartsMono_eq (l : Timeline) :
    tlStartsMono l = startsMonoL (l.map Prod.fst) := by
  induction l with
  | nil => rfl
  | cons iv r ih =>
    cases r with
    | nil => rfl
    | cons iv2 r2 =>
      simp only [tlStartsMono, startsMonoL, List.map_cons] at ih ⊢
      rw [ih]

theorem startsMonoL_concat (l : List Int) (a x : Int) (h : l.getLast? = some a) :
    startsMonoL (l ++ [x]) = (startsMonoL l && decide (a ≤ x)) := by
  induction l with
  | nil => simp at h
  | cons b bs ih =>
    cases bs with
    | nil =>
      simp only [List.getLast?_singleton, Option.some.injEq] at h
      subst h
      simp [startsMonoL]
    | cons c cs =>
      rw [List.getLast?_cons_cons] at h
      have h2 := ih h
      simp only [List.cons_append, startsMonoL, List.append_eq] at h2 ⊢
      rw [h2, Bool.and_assoc]

theorem tlWeakOk_single (t0 t1 : Int) (h : t0 ≤ t1) : tlWeakOk [(t0, t1)] = true := by
  simp [tlWeakOk, tlStartsMono, h]

theorem tlWeakOk_concat (app : Timeline) (last : Int × Int) (t0 t1 : Int)
    (h : app.getLast? = some last) (hw : tlWeakOk app = true)
    (h0 : last.1 ≤ t0) (h01 : t0 ≤ t1) : tlWeakOk (app ++ [(t0, t1)]) = true := by
  have happ : app = app.dropLast ++ [last] := eq_dropLast_append app last h
  simp only [tlWeakOk, Bool.and_eq_true] at hw
  obtain ⟨⟨hne, hall⟩, hmono⟩ := hw
  simp only [tlWeakOk, Bool.and_eq_true]
  refine ⟨⟨by simp, ?_⟩, ?_⟩
  · rw [List.all_append]
    simp [hall, h01]
  · rw [tlStartsMono_eq] at hmono ⊢
    rw [List.map_append]
    simp only [List.map_cons, List.map_nil]
    have hlast : (app.map Prod.fst).getLast? = some last.1 := by
      conv in app => rw [happ]
      rw [List.map_append]
      simp only [List.map_cons, List.map_nil]
      exact List.getLast?_concat _
    rw [startsMonoL_concat _ last.1 _ hlast]
    simp [hmono, h0]

theorem tlWeakOk_rewrite (app : Timeline) (last : Int × Int) (t1 : Int)
    (h : app.getLast? = some last) (hw : tlWeakOk app = true) (h1 : last.1 ≤ t1) :
    tlWeakOk (app.dropLast ++ [(last.1, t1)]) = true := by
  have happ : app = app.dropLast ++ [last] := eq_dropLast_append app last h
  simp only [tlWeakOk, Bool.and_eq_true] at hw
  obtain ⟨⟨hne, hall⟩, hmono⟩ := hw
  rw [happ, List.all_append] at hall
  simp only [Bool.and_eq_true] at hall
  simp only [tlWeakOk, Bool.and_eq_true]
  refine ⟨⟨by simp, ?_⟩, ?_⟩
  · rw [List.all_append]
    simp [hall.1, h1]
  · rw [tlStartsMono_eq] at hmono ⊢
    have hmapeq : (app.dropLast ++ [(last.1, t1)]).map Prod.fst = app.map Prod.fst := by
      conv in List.map Prod.fst app => rw [happ]
      simp
    rw [hmapeq]
    exact hmono

/-! ### `aiTimeline` branch characterizations -/

theorem aiTimeline_success_tl (g : DynGraph) (u v : Nat) (t0 t1 : Int) (g' : DynGraph)
    (h : aiTimeline g u v t0 t1 = (g', none)) :
    (findTl g.tl u v = none ∧ g'.tl = setTl g.tl u v [(t0, t1)]) ∨
    ∃ app last, findTl g.tl u v = some app ∧ app.getLast? = some last ∧
      ((g'.tl = setTl g.tl u v (app.dropLast ++ [(last.1, t1)]) ∧
          (last.1 = last.2 ∧ t0 = last.1 + 1 ∨
           last.1 ≤ t0 ∧ t0 ≤ last.2 ∧ last.2 < t1 ∨
           last.1 ≤ t0 ∧ last.2 = t0 - 1)) ∨
        g'.tl = setTl g.tl u v (app ++ [(t0, t1)]) ∧ last.1 ≤ t0) := by
  unfold aiTimeline at h
  cases hf : findTl g.tl u v with
  | none =>
    rw [hf] at h
    dsimp only at h
    injection h with h1 h2
    subst h1
    exact Or.inl ⟨rfl, rfl⟩
  | some app =>
    rw [hf] at h
    dsimp only at h
    cases hl : app.getLast? with
    | none =>
      rw [hl] at h
      dsimp only at h
      injection h with h1 h2
      cases h2
    | some last =>
      rw [hl] at h
      dsimp only at h
      refine Or.inr ⟨app, last, rfl, hl, ?_⟩
      by_cases h1 : (decide (last.1 = last.2) && decide (t0 = last.1 + 1)) = true
      · rw [if_pos h1] at h
        simp only [Bool.and_eq_true, decide_eq_true_eq] at h1
        injection h with hg hn
        subst hg
        refine Or.inl ⟨?_, Or.inl ⟨h1.1, h1.2⟩⟩
        split <;> rfl
      · rw [if_neg h1] at h
        simp only [Bool.and_eq_true, decide_eq_true_eq, not_and_or] at h1
        by_cases h2 : t0 < last.1
        · rw [if_pos h2] at h
          injection h with hg hn
          cases hn
        · rw [if_neg h2] at h
          by_cases h3 : (decide (t0 ≤ last.2) && decide (last.2 < t1)) = true
          · rw [if_pos h3] at h
            simp only [Bool.and_eq_true, decide_eq_true_eq] at h3
            by_cases h4 :
                ledgerHasKey { g with tl := setTl g.tl u v (app.dropLast ++ [(last.1, t1)]) }.ledger
                  (last.2 + 1) = true
            · rw [if_pos h4] at h
              refine Or.inl ⟨?_, Or.inr (Or.inl ⟨by omega, h3.1, h3.2⟩)⟩
              split at h
              · injection h with hg hn
                cases hn
              · split at h
                · injection h with hg hn
                  cases hn
                · injection h with hg hn
                  subst hg
                  rfl
            · rw [if_neg h4] at h
              injection h with hg hn
              subst hg
              exact Or.inl ⟨rfl, Or.inr (Or.inl ⟨by omega, h3.1, h3.2⟩)⟩
          · rw [if_neg h3] at h
            simp only [Bool.and_eq_true, decide_eq_true_eq, not_and_or] at h3
            by_cases h5 : last.2 = t0 - 1
            · rw [if_pos h5] at h
              injection h with hg hn
              subst hg
              refine Or.inl ⟨?_, Or.inr (Or.inr ⟨by omega, h5⟩)⟩
              have htl4 :
                  (if ledgerHasTok g.ledger (last.2 + 1) (u, v, true) = true then
                      if g.edgeRemoval = true then
                        { g with ledger :=
                            ledgerAdd (ledgerDelSafe (ledgerDelSafe g.ledger (last.2 + 1) (u, v, true))
                              (last.2 + 1) (u, v, false)) (t1 + 1) (u, v, false) }
                      else { g with ledger := ledgerDelSafe g.ledger (last.2 + 1) (u, v, true) }
                    else g).tl = g.tl := by
                split
                · split <;> rfl
                · rfl
              rw [htl4]
            · rw [if_neg h5] at h
              injection h with hg hn
              subst hg
              exact Or.inr ⟨rfl, by omega⟩

theorem aiTimeline_orderViolation (g : DynGraph) (u v : Nat) (t0 t1 : Int) (g' : DynGraph)
    (h : aiTimeline g u v t0 t1 = (g', some Err.orderViolation)) : g' = g := by
  unfold aiTimeline at h
  dsimp only at h
  (repeat' split at h) <;> simp_all

theorem aiTimeline_degenerate (g : DynGraph) (u v : Nat) (t0 : Int) (app : Timeline)
    (last : Int × Int) (hf : findTl g.tl u v = some app) (hl : app.getLast? = some last) :
    (aiTimeline g u v t0 t0).2 =
      if t0 < last.1 then some Err.orderViolation else none := by
  unfold aiTimeline
  rw [hf]
  dsimp only
  rw [hl]
  dsimp only
  by_cases h1 : (decide (last.1 = last.2) && decide (t0 = last.1 + 1)) = true
  · rw [if_pos h1]
    simp only [Bool.and_eq_true, decide_eq_true_eq] at h1
    have hno : ¬ t0 < last.1 := by omega
    rw [if_neg hno]
  · rw [if_neg h1]
    by_cases h2 : t0 < last.1
    · rw [if_pos h2, if_pos h2]
    · rw [if_neg h2, if_neg h2]
      have hno3 : ¬ (decide (t0 ≤ last.2) && decide (last.2 < t0)) = true := fun hc => by
        simp only [Bool.and_eq_true, decide_eq_true_eq] at hc
        omega
      rw [if_neg hno3]
      by_cases h5 : last.2 = t0 - 1
      · rw [if_pos h5]
      · rw [if_neg h5]

/-! ### Coverage and adjacency helper lemmas -/

theorem coversTlB_iff (tl : Timeline) (x : Int) :
    coversTlB tl x = true ↔ ∃ iv ∈ tl, iv.1 ≤ x ∧ x ≤ iv.2 := by
  simp [coversTlB, List.any_eq_true]

theorem coversB_iff (r : EdgeReg) (x : Int) :
    coversB r x = true ↔ ∃ p ∈ r, coversTlB p.2 x = true := by
  simp [coversB, List.any_eq_true]

theorem mem_setTl_of_mem (r : EdgeReg) (u v : Nat) (nt : Timeline)
    (p : (Nat × Nat) × Timeline) (h : p ∈ r) :
    p ∈ setTl r u v nt ∨ (findTl r u v = some p.2 ∧ pairMatch p.1 u v = true) := by
  induction r with
  | nil => cases h
  | cons q rest ih =>
    simp only [setTl, findTl]
    by_cases hq : pairMatch q.1 u v = true
    · rw [if_pos hq, if_pos hq]
      rcases List.mem_cons.mp h with h' | h'
      · subst h'
        exact Or.inr ⟨rfl, hq⟩
      · exact Or.inl (List.mem_cons_of_mem _ h')
    · rw [if_neg hq, if_neg hq]
      rcases List.mem_cons.mp h with h' | h'
      · subst h'
        exact Or.inl (List.mem_cons_self _ _)
      · rcases ih h' with h'' | h''
        · exact Or.inl (List.mem_cons_of_mem _ h'')
        · exact Or.inr h''

theorem setTl_self_mem (r : EdgeReg) (u v : Nat) (nt : Timeline) :
    ∃ k, (k, nt) ∈ setTl r u v nt := by
  obtain ⟨k, hk, -⟩ := findTl_mem (setTl r u v nt) u v nt (findTl_setTl_self r u v nt)
  exact ⟨k, hk⟩

theorem adjAddNbr_mem_eq (a : Adj) (n m : Nat) (l : List Nat)
    (h : adjNbrs a n = some l) (hm : m ∈ l) : adjAddNbr a n m = a := by
  induction a with
  | nil => rfl
  | cons p rest ih =>
    simp only [adjNbrs, aGet] at h
    simp only [adjAddNbr]
    by_cases hp : p.1 = n
    · rw [if_pos hp] at h
      injection h with h'
      subst h'
      rw [if_pos hp, if_pos hm]
    · rw [if_neg hp] at h
      rw [if_neg hp, ih h]

theorem hasEdgeB_elim (g : DynGraph) (u v : Nat) (h : hasEdgeB g u v = true) :
    ∃ l, adjNbrs g.adj u = some l ∧ v ∈ l := by
  unfold hasEdgeB at h
  cases hn : adjNbrs g.adj u with
  | none => rw [hn] at h; cases h
  | some l =>
    rw [hn] at h
    simp only [decide_eq_true_eq] at h
    exact ⟨l, rfl, h⟩

theorem degreeAt_none_congr (g g' : DynGraph) (h : g'.adj = g.adj) (n : Nat) :
    degreeAt g' n none = degreeAt g n none := by
  unfold degreeAt adjNbrs
  rw [h]

theorem sumDegrees_none_congr (g g' : DynGraph) (h : g'.adj = g.adj) :
    sumDegrees g' none = sumDegrees g none := by
  unfold sumDegrees
  rw [h]
  have hfun : (fun (acc : Nat) (p : Nat × List Nat) => acc + degreeAt g' p.1 none) =
      (fun acc p => acc + degreeAt g p.1 none) := by
    funext acc p
    rw [degreeAt_none_congr g g' h]
  rw [hfun]

theorem numberOfInteractions_none_congr (g g' : DynGraph) (h : g'.adj = g.adj) :
    numberOfInteractions g' none none none = numberOfInteractions g none none none := by
  unfold numberOfInteractions size
  rw [sumDegrees_none_congr g g' h]

/-! ### `addInteraction` step lemmas -/

theorem addInteraction_snd_eq (g : DynGraph) (u v : Nat) (t0 : Int) (e : Option Int) :
    (addInteraction g u v (some t0) e).2 =
      (aiTimeline (aiLedgerPhase (ensureNode (ensureNode g u) v) u v t0 e).2 u v t0
        (aiLedgerPhase (ensureNode (ensureNode g u) v) u v t0 e).1).2 := by
  unfold addInteraction
  dsimp only
  rcases hT : aiTimeline (aiLedgerPhase (ensureNode (ensureNode g u) v) u v t0 e).2 u v t0
      (aiLedgerPhase (ensureNode (ensureNode g u) v) u v t0 e).1 with ⟨g4, err4⟩
  cases err4 <;> rfl

theorem aiLedgerPhase_fst_le (g : DynGraph) (u v : Nat) (t0 : Int) (e : Option Int)
    (hc : wfCallB (u, v, some t0, e) = true) : t0 ≤ (aiLedgerPhase g u v t0 e).1 := by
  rw [aiLedgerPhase_fst]
  cases e with
  | none => exact le_refl t0
  | some ev =>
    simp only [wfCallB, decide_eq_true_eq] at hc
    dsimp only
    split
    · omega
    · exact le_refl t0

theorem addInteraction_wf_step (g : DynGraph) (u v : Nat) (t? e : Option Int)
    (g' : DynGraph) (hwf : wfTimelines g) (hc : wfCallB (u, v, t?, e) = true)
    (h : addInteraction g u v t? e = (g', none)) : wfTimelines g' := by
  cases t? with
  | none => simp [wfCallB] at hc
  | some t0 =>
    have ht1 : t0 ≤ (aiLedgerPhase (ensureNode (ensureNode g u) v) u v t0 e).1 :=
      aiLedgerPhase_fst_le _ u v t0 e hc
    have htl1 : (aiLedgerPhase (ensureNode (ensureNode g u) v) u v t0 e).2.tl = g.tl := by
      rw [aiLedgerPhase_tl, ensureNode_tl, ensureNode_tl]
    unfold addInteraction at h
    dsimp only at h
    rcases hT : aiTimeline (aiLedgerPhase (ensureNode (ensureNode g u) v) u v t0 e).2 u v t0
        (aiLedgerPhase (ensureNode (ensureNode g u) v) u v t0 e).1 with ⟨g4, err4⟩
    rw [hT] at h
    cases err4 with
    | some err => simp at h
    | none =>
      dsimp only at h
      injection h with h1 h2
      subst h1
      have htlF : (aiFinish g4 u v t0
          (aiLedgerPhase (ensureNode (ensureNode g u) v) u v t0 e).1 e).tl = g4.tl :=
        (aiFinish_frame _ _ _ _ _ _).2.1
      unfold wfTimelines
      rw [htlF]
      rcases aiTimeline_success_tl _ u v t0 _ g4 hT with ⟨hf, htl⟩ | ⟨app, last, hf, hl, hsh⟩
      · rw [htl, htl1]
        intro q hq
        rcases mem_setTl g.tl u v _ q hq with hq' | hq'
        · exact hwf q hq'
        · rw [hq']
          exact tlWeakOk_single t0 _ ht1
      · rw [htl1] at hf
        obtain ⟨k, hkmem, -⟩ := findTl_mem g.tl u v app hf
        have hwapp : tlWeakOk app = true := hwf (k, app) hkmem
        rcases hsh with ⟨htl, hcond⟩ | ⟨htl, hls⟩
        · rw [htl, htl1]
          intro q hq
          rcases mem_setTl g.tl u v _ q hq with hq' | hq'
          · exact hwf q hq'
          · rw [hq']
            refine tlWeakOk_rewrite app last _ hl hwapp ?_
            rcases hcond with ⟨hq1, hq2⟩ | ⟨hq1, hq2, hq3⟩ | ⟨hq1, hq2⟩ <;> omega
        · rw [htl, htl1]
          intro q hq
          rcases mem_setTl g.tl u v _ q hq with hq' | hq'
          · exact hwf q hq'
          · rw [hq']
            exact tlWeakOk_concat app last t0 _ hl hwapp hls ht1

theorem coversB_setTl_fresh (r : EdgeReg) (u v : Nat) (t0 t1 x : Int)
    (hf : findTl r u v = none) :
    coversB (setTl r u v [(t0, t1)]) x = true ↔
      coversB r x = true ∨ t0 ≤ x ∧ x ≤ t1 := by
  constructor
  · intro hcb
    obtain ⟨p, hp, hcv⟩ := (coversB_iff _ x).mp hcb
    rcases mem_setTl r u v _ p hp with hp' | hp'
    · exact Or.inl ((coversB_iff _ x).mpr ⟨p, hp', hcv⟩)
    · rw [hp'] at hcv
      obtain ⟨iv, hiv, h1, h2⟩ := (coversTlB_iff _ x).mp hcv
      simp only [List.mem_singleton] at hiv
      subst hiv
      exact Or.inr ⟨h1, h2⟩
  · rintro (hcb | ⟨h1, h2⟩)
    · obtain ⟨p, hp, hcv⟩ := (coversB_iff _ x).mp hcb
      rcases mem_setTl_of_mem r u v [(t0, t1)] p hp with hp' | ⟨hfind, -⟩
      · exact (coversB_iff _ x).mpr ⟨p, hp', hcv⟩
      · rw [hf] at hfind
        cases hfind
    · obtain ⟨k, hk⟩ := setTl_self_mem r u v [(t0, t1)]
      refine (coversB_iff _ x).mpr ⟨(k, [(t0, t1)]), hk, ?_⟩
      exact (coversTlB_iff _ x).mpr ⟨(t0, t1), List.mem_singleton.mpr rfl, h1, h2⟩

theorem coversB_setTl_append (r : EdgeReg) (u v : Nat) (app : Timeline) (t0 t1 x : Int)
    (hf : findTl r u v = some app) :
    coversB (setTl r u v (app ++ [(t0, t1)])) x = true ↔
      coversB r x = true ∨ t0 ≤ x ∧ x ≤ t1 := by
  obtain ⟨ka, hka, -⟩ := findTl_mem r u v app hf
  obtain ⟨k, hk⟩ := setTl_self_mem r u v (app ++ [(t0, t1)])
  constructor
  · intro hcb
    obtain ⟨p, hp, hcv⟩ := (coversB_iff _ x).mp hcb
    rcases mem_setTl r u v _ p hp with hp' | hp'
    · exact Or.inl ((coversB_iff _ x).mpr ⟨p, hp', hcv⟩)
    · rw [hp'] at hcv
      obtain ⟨iv, hiv, h1, h2⟩ := (coversTlB_iff _ x).mp hcv
      rcases List.mem_append.mp hiv with hiv' | hiv'
      · exact Or.inl ((coversB_iff _ x).mpr
          ⟨(ka, app), hka, (coversTlB_iff _ x).mpr ⟨iv, hiv', h1, h2⟩⟩)
      · simp only [List.mem_singleton] at hiv'
        subst hiv'
        exact Or.inr ⟨h1, h2⟩
  · rintro (hcb | ⟨h1, h2⟩)
    · obtain ⟨p, hp, hcv⟩ := (coversB_iff _ x).mp hcb
      rcases mem_setTl_of_mem r u v (app ++ [(t0, t1)]) p hp with hp' | ⟨hfind, -⟩
      · exact (coversB_iff _ x).mpr ⟨p, hp', hcv⟩
      · rw [hf] at hfind
        injection hfind with hfind'
        obtain ⟨iv, hiv, h1, h2⟩ := (coversTlB_iff _ x).mp hcv
        refine (coversB_iff _ x).mpr ⟨(k, app ++ [(t0, t1)]), hk, ?_⟩
        refine (coversTlB_iff _ x).mpr ⟨iv, List.mem_append_left _ ?_, h1, h2⟩
        rw [← hfind'] at hiv
        exact hiv
    · refine (coversB_iff _ x).mpr ⟨(k, app ++ [(t0, t1)]), hk, ?_⟩
      exact (coversTlB_iff _ x).mpr
        ⟨(t0, t1), List.mem_append_right _ (List.mem_singleton.mpr rfl), h1, h2⟩

theorem coversB_setTl_rewrite (r : EdgeReg) (u v : Nat) (app : Timeline)
    (last : Int × Int) (t0 t1 x : Int)
    (hf : findTl r u v = some app) (hl : app.getLast? = some last)
    (hls : last.1 ≤ t0) (hme : last.2 ≤ t1) (hgap : t0 ≤ last.2 + 1) :
    coversB (setTl r u v (app.dropLast ++ [(last.1, t1)])) x = true ↔
      coversB r x = true ∨ t0 ≤ x ∧ x ≤ t1 := by
  obtain ⟨ka, hka, -⟩ := findTl_mem r u v app hf
  obtain ⟨k, hk⟩ := setTl_self_mem r u v (app.dropLast ++ [(last.1, t1)])
  have happ : app = app.dropLast ++ [last] := eq_dropLast_append app last hl
  constructor
  · intro hcb
    obtain ⟨p, hp, hcv⟩ := (coversB_iff _ x).mp hcb
    rcases mem_setTl r u v _ p hp with hp' | hp'
    · exact Or.inl ((coversB_iff _ x).mpr ⟨p, hp', hcv⟩)
    · rw [hp'] at hcv
      obtain ⟨iv, hiv, h1, h2⟩ := (coversTlB_iff _ x).mp hcv
      rcases List.mem_append.mp hiv with hiv' | hiv'
      · have hiva : iv ∈ app := by
          rw [happ]
          exact List.mem_append_left _ hiv'
        exact Or.inl ((coversB_iff _ x).mpr
          ⟨(ka, app), hka, (coversTlB_iff _ x).mpr ⟨iv, hiva, h1, h2⟩⟩)
      · simp only [List.mem_singleton] at hiv'
        subst hiv'
        by_cases hx : x ≤ last.2
        · exact Or.inl ((coversB_iff _ x).mpr
            ⟨(ka, app), hka,
              (coversTlB_iff _ x).mpr ⟨last, mem_of_getLast app last hl, h1, hx⟩⟩)
        · exact Or.inr ⟨by omega, h2⟩
  · rintro (hcb | ⟨h1, h2⟩)
    · obtain ⟨p, hp, hcv⟩ := (coversB_iff _ x).mp hcb
      rcases mem_setTl_of_mem r u v (app.dropLast ++ [(last.1, t1)]) p hp with
        hp' | ⟨hfind, -⟩
      · exact (coversB_iff _ x).mpr ⟨p, hp', hcv⟩
      · rw [hf] at hfind
        injection hfind with hfind'
        obtain ⟨iv, hiv, h1, h2⟩ := (coversTlB_iff _ x).mp hcv
        rw [← hfind', happ] at hiv
        refine (coversB_iff _ x).mpr ⟨(k, app.dropLast ++ [(last.1, t1)]), hk, ?_⟩
        rcases List.mem_append.mp hiv with hiv' | hiv'
        · exact (coversTlB_iff _ x).mpr ⟨iv, List.mem_append_left _ hiv', h1, h2⟩
        · simp only [List.mem_singleton] at hiv'
          rw [hiv'] at h1 h2
          exact (coversTlB_iff _ x).mpr
            ⟨(last.1, t1), List.mem_append_right _ (List.mem_singleton.mpr rfl),
              h1, by omega⟩
    · refine (coversB_iff _ x).mpr ⟨(k, app.dropLast ++ [(last.1, t1)]), hk, ?_⟩
      exact (coversTlB_iff _ x).mpr
        ⟨(last.1, t1), List.mem_append_right _ (List.mem_singleton.mpr rfl),
          by omega, h2⟩

theorem addInteraction_cov_step (g : DynGraph) (u v : Nat) (t0 : Int) (e : Option Int)
    (g' : DynGraph) (hc : wfCallB (u, v, some t0, e) = true)
    (h : addInteraction g u v (some t0) e = (g', none)) :
    ∃ t1, t0 ≤ t1 ∧
      (∀ x : Int, x ∈ g'.snaps.map Prod.fst ↔
        x ∈ g.snaps.map Prod.fst ∨ t0 ≤ x ∧ x ≤ t1) ∧
      (∀ x : Int, coversB g'.tl x = true ↔
        coversB g.tl x = true ∨ t0 ≤ x ∧ x ≤ t1) ∧
      ((g.snaps.map Prod.fst).Nodup → (g'.snaps.map Prod.fst).Nodup) := by
  have ht1 : t0 ≤ (aiLedgerPhase (ensureNode (ensureNode g u) v) u v t0 e).1 :=
    aiLedgerPhase_fst_le _ u v t0 e hc
  have htl1 : (aiLedgerPhase (ensureNode (ensureNode g u) v) u v t0 e).2.tl = g.tl := by
    rw [aiLedgerPhase_tl, ensureNode_tl, ensureNode_tl]
  have hsn1 : (aiLedgerPhase (ensureNode (ensureNode g u) v) u v t0 e).2.snaps = g.snaps := by
    rw [aiLedgerPhase_snaps, ensureNode_snaps, ensureNode_snaps]
  unfold addInteraction at h
  dsimp only at h
  rcases hT : aiTimeline (aiLedgerPhase (ensureNode (ensureNode g u) v) u v t0 e).2 u v t0
      (aiLedgerPhase (ensureNode (ensureNode g u) v) u v t0 e).1 with ⟨g4, err4⟩
  rw [hT] at h
  cases err4 with
  | some err => simp at h
  | none =>
    dsimp only at h
    injection h with h1 h2
    subst h1
    have hsn4 : g4.snaps = g.snaps := by
      have hfr := (aiTimeline_frame (aiLedgerPhase (ensureNode (ensureNode g u) v) u v t0 e).2
        u v t0 (aiLedgerPhase (ensureNode (ensureNode g u) v) u v t0 e).1).2.2.1
      rw [hT] at hfr
      rw [hfr, hsn1]
    refine ⟨(aiLedgerPhase (ensureNode (ensureNode g u) v) u v t0 e).1, ht1, ?_, ?_, ?_⟩
    · intro x
      rw [aiFinish_snaps, hsn4]
      cases e with
      | some ev =>
        dsimp only
        rw [snapBumpRange_mem]
      | none =>
        dsimp only
        have hfst : (aiLedgerPhase (ensureNode (ensureNode g u) v) u v t0 none).1 = t0 := by
          rw [aiLedgerPhase_fst]
        rw [hfst, snapBump_mem, snapBump_mem]
        constructor
        · rintro ((hx | hx) | hx)
          · exact Or.inl hx
          · exact Or.inr (by omega)
          · exact Or.inr (by omega)
        · rintro (hx | hx)
          · exact Or.inl (Or.inl hx)
          · exact Or.inr (by omega)
    · intro x
      have htlF : (aiFinish g4 u v t0
          (aiLedgerPhase (ensureNode (ensureNode g u) v) u v t0 e).1 e).tl = g4.tl :=
        (aiFinish_frame _ _ _ _ _ _).2.1
      rw [htlF]
      rcases aiTimeline_success_tl _ u v t0 _ g4 hT with ⟨hf, htl⟩ | ⟨app, last, hf, hl, hsh⟩
      · rw [htl1] at hf
        rw [htl, htl1]
        exact coversB_setTl_fresh g.tl u v t0 _ x hf
      · rw [htl1] at hf
        rcases hsh with ⟨htl, hcond⟩ | ⟨htl, hls⟩
        · rw [htl, htl1]
          refine coversB_setTl_rewrite g.tl u v app last t0 _ x hf hl ?_ ?_ ?_
          · rcases hcond with ⟨hq1, hq2⟩ | ⟨hq1, hq2, hq3⟩ | ⟨hq1, hq2⟩ <;> omega
          · rcases hcond with ⟨hq1, hq2⟩ | ⟨hq1, hq2, hq3⟩ | ⟨hq1, hq2⟩ <;> omega
          · rcases hcond with ⟨hq1, hq2⟩ | ⟨hq1, hq2, hq3⟩ | ⟨hq1, hq2⟩ <;> omega
        · rw [htl, htl1]
          exact coversB_setTl_append g.tl u v app t0 _ x hf
    · intro hnd
      rw [aiFinish_snaps, hsn4]
      cases e with
      | some ev =>
        dsimp only
        exact snapBumpRange_nodup _ _ _ hnd
      | none =>
        dsimp only
        exact snapBump_nodup _ _ (snapBump_nodup _ _ hnd)

theorem applyCalls_inv_aux (calls : List Call) :
    ∀ g0 g : DynGraph, wfTimelines g0 → (g0.snaps.map Prod.fst).Nodup → StoreCov g0 →
      (∀ c ∈ calls, wfCallB c = true) → applyCalls g0 calls = some g →
      wfTimelines g ∧ (g.snaps.map Prod.fst).Nodup ∧ StoreCov g := by
  induction calls with
  | nil =>
    intro g0 g h1 h2 h3 _ h
    injection h with h'
    subst h'
    exact ⟨h1, h2, h3⟩
  | cons c rest ih =>
    intro g0 g h1 h2 h3 hwfc h
    obtain ⟨u, v, t?, e⟩ := c
    unfold applyCalls at h
    rcases hA : addInteraction g0 u v t? e with ⟨g1, err⟩
    rw [hA] at h
    cases err with
    | some err' => simp at h
    | none =>
      dsimp only at h
      have hc : wfCallB (u, v, t?, e) = true := hwfc _ (List.mem_cons_self _ _)
      cases t? with
      | none => simp [wfCallB] at hc
      | some t0 =>
        have hstep := addInteraction_wf_step g0 u v (some t0) e g1 h1 hc hA
        obtain ⟨t1, ht01, hsn, hcov, hnd⟩ := addInteraction_cov_step g0 u v t0 e g1 hc hA
        refine ih g1 g hstep (hnd h2) ?_
          (fun c hc' => hwfc c (List.mem_cons_of_mem _ hc')) h
        intro x
        rw [hsn x, hcov x]
        rw [h3 x]

theorem addInteraction_tl_shape (g0 : DynGraph) (u v : Nat) (t0 : Int) (e : Option Int)
    (g1 : DynGraph) (h : addInteraction g0 u v (some t0) e = (g1, none)) :
    ∃ t1,
      (∀ a b, pairMatch (u, v) a b = false → findTl g1.tl a b = findTl g0.tl a b) ∧
      ((findTl g0.tl u v = none ∧ findTl g1.tl u v = some [(t0, t1)]) ∨
        ∃ app last, findTl g0.tl u v = some app ∧ app.getLast? = some last ∧
          (findTl g1.tl u v = some (app ++ [(t0, t1)]) ∨
            findTl g1.tl u v = some (app.dropLast ++ [(last.1, t1)]))) := by
  have htl1 : (aiLedgerPhase (ensureNode (ensureNode g0 u) v) u v t0 e).2.tl = g0.tl := by
    rw [aiLedgerPhase_tl, ensureNode_tl, ensureNode_tl]
  unfold addInteraction at h
  dsimp only at h
  rcases hT : aiTimeline (aiLedgerPhase (ensureNode (ensureNode g0 u) v) u v t0 e).2 u v t0
      (aiLedgerPhase (ensureNode (ensureNode g0 u) v) u v t0 e).1 with ⟨g4, err4⟩
  rw [hT] at h
  cases err4 with
  | some err => simp at h
  | none =>
    dsimp only at h
    injection h with h1 h2
    subst h1
    have htlF : (aiFinish g4 u v t0
        (aiLedgerPhase (ensureNode (ensureNode g0 u) v) u v t0 e).1 e).tl = g4.tl :=
      (aiFinish_frame _ _ _ _ _ _).2.1
    refine ⟨(aiLedgerPhase (ensureNode (ensureNode g0 u) v) u v t0 e).1, ?_, ?_⟩
    · intro a b hab
      rw [htlF]
      rcases aiTimeline_success_tl _ u v t0 _ g4 hT with ⟨hf, htl⟩ | ⟨app, last, hf, hl, hsh⟩
      · rw [htl, htl1]
        exact findTl_setTl_other g0.tl u v a b _ hab
      · rcases hsh with ⟨htl, -⟩ | ⟨htl, -⟩ <;>
          (rw [htl, htl1]; exact findTl_setTl_other g0.tl u v a b _ hab)
    · rw [htlF]
      rcases aiTimeline_success_tl _ u v t0 _ g4 hT with ⟨hf, htl⟩ | ⟨app, last, hf, hl, hsh⟩
      · rw [htl1] at hf
        rw [htl, htl1]
        exact Or.inl ⟨hf, findTl_setTl_self g0.tl u v _⟩
      · rw [htl1] at hf
        rcases hsh with ⟨htl, -⟩ | ⟨htl, -⟩
        · rw [htl, htl1]
          exact Or.inr ⟨app, last, hf, hl, Or.inr (findTl_setTl_self g0.tl u v _)⟩
        · rw [htl, htl1]
          exact Or.inr ⟨app, last, hf, hl, Or.inl (findTl_setTl_self g0.tl u v _)⟩

/-- C1 (counterexample): the error-free call sequence
`add_interaction(0, 1, t=1, e=6); add_interaction(0, 1, t=3)` leaves the
edge timeline `[[1, 5], [3, 3]]`, whose two intervals overlap: the claimed
pairwise-disjoint strictly-increasing interval invariant does not hold on
reachable states. -/
theorem addInteraction_overlapping_intervals :
    applyCalls (DynGraph.empty true) [(0, 1, some 1, some 6), (0, 1, some 3, none)] =
        some gOvl ∧
      findTl gOvl.tl 0 1 = some [(1, 5), (3, 3)] ∧
      tlStrict [(1, 5), (3, 3)] = false := by
  refine ⟨rfl, by decide, by decide⟩

/-- C1 (amended): every store reachable from the empty store by successful
well-formed calls (timestamp given, vanishing id after the timestamp) has,
for every edge, a non-empty timeline of well-formed intervals `s ≤ e` with
non-decreasing starts — pairwise disjointness is not maintained; and every
successful call leaves the timeline of every other edge untouched and, on
the called edge, only installs a fresh one-interval timeline, appends a
new tail interval, or rewrites the end of the current tail interval
(keeping its start). -/
theorem applyCalls_timeline_invariant (er : Bool) (calls : List Call) (g : DynGraph)
    (hwfc : ∀ c ∈ calls, wfCallB c = true)
    (h : applyCalls (DynGraph.empty er) calls = some g) :
    wfTimelines g ∧
      ∀ (g0 g1 : DynGraph) (u v : Nat) (t0 : Int) (e : Option Int),
        addInteraction g0 u v (some t0) e = (g1, none) →
        ∃ t1,
          (∀ a b, pairMatch (u, v) a b = false → findTl g1.tl a b = findTl g0.tl a b) ∧
          ((findTl g0.tl u v = none ∧ findTl g1.tl u v = some [(t0, t1)]) ∨
            ∃ app last, findTl g0.tl u v = some app ∧ app.getLast? = some last ∧
              (findTl g1.tl u v = some (app ++ [(t0, t1)]) ∨
                findTl g1.tl u v = some (app.dropLast ++ [(last.1, t1)]))) :=
  ⟨(applyCalls_inv_aux calls (DynGraph.empty er) g
      (fun p hp => absurd hp (List.not_mem_nil p)) (by simp [DynGraph.empty])
      (fun x => by simp [DynGraph.empty, coversB]) hwfc h).1,
    fun g0 g1 u v t0 e hs => addInteraction_tl_shape g0 u v t0 e g1 hs⟩

/-- Witness for the amended C1 theorem at a concrete call sequence. -/
theorem applyCalls_timeline_invariant_witness :
    (∀ c ∈ [((0, 1, some 1, some 3) : Call)], wfCallB c = true) ∧
      applyCalls (DynGraph.empty true) [(0, 1, some 1, some 3)] = some gCov ∧
      (wfTimelines gCov ∧
        ∀ (g0 g1 : DynGraph) (u v : Nat) (t0 : Int) (e : Option Int),
          addInteraction g0 u v (some t0) e = (g1, none) →
          ∃ t1,
            (∀ a b, pairMatch (u, v) a b = false → findTl g1.tl a b = findTl g0.tl a b) ∧
            ((findTl g0.tl u v = none ∧ findTl g1.tl u v = some [(t0, t1)]) ∨
              ∃ app last, findTl g0.tl u v = some app ∧ app.getLast? = some last ∧
                (findTl g1.tl u v = some (app ++ [(t0, t1)]) ∨
                  findTl g1.tl u v = some (app.dropLast ++ [(last.1, t1)])))) :=
  ⟨by decide, rfl,
    applyCalls_timeline_invariant true [(0, 1, some 1, some 3)] gCov (by decide) rfl⟩

/-- C4 (counterexample): the error-free sequence `add_interaction(0, 1, t=4);
add_interaction(0, 1, t=5, e=4)` reaches a store whose snapshot index still
holds id `4` while the only edge timeline, the empty interval `[4, 3]`,
covers no snapshot at all: `temporal_snapshots_ids()` then returns an id no
interval covers. -/
theorem temporalSnapshotIds_stale_id :
    applyCalls (DynGraph.empty true) [(0, 1, some 4, none), (0, 1, some 5, some 4)] =
        some gSnapBug ∧
      temporalSnapshotIds gSnapBug = [4] ∧
      findTl gSnapBug.tl 0 1 = some [(4, 3)] ∧
      coversB gSnapBug.tl 4 = false := by
  refine ⟨rfl, by decide, by decide, by decide⟩

/-- C4 (amended): after every sequence of successful well-formed calls
(timestamp given, vanishing id after the timestamp), `temporal_snapshots_ids()`
is sorted, duplicate-free, and holds exactly the snapshot ids covered by
some interval of some edge timeline. -/
theorem applyCalls_snapshot_ids (er : Bool) (calls : List Call) (g : DynGraph)
    (hwfc : ∀ c ∈ calls, wfCallB c = true)
    (h : applyCalls (DynGraph.empty er) calls = some g) :
    List.Sorted (fun a b : Int => a ≤ b) (temporalSnapshotIds g) ∧
      (temporalSnapshotIds g).Nodup ∧
      ∀ x : Int, x ∈ temporalSnapshotIds g ↔ coversB g.tl x = true := by
  obtain ⟨-, hnd, hcov⟩ := applyCalls_inv_aux calls (DynGraph.empty er) g
    (fun p hp => absurd hp (List.not_mem_nil p)) (by simp [DynGraph.empty])
    (fun x => by simp [DynGraph.empty, coversB]) hwfc h
  have hperm : List.Perm (temporalSnapshotIds g) (g.snaps.map Prod.fst) :=
    List.perm_insertionSort _ _
  refine ⟨List.sorted_insertionSort _ _, hperm.nodup_iff.mpr hnd, ?_⟩
  intro x
  rw [hperm.mem_iff]
  exact hcov x

/-- Witness for the amended C4 theorem at a concrete call sequence. -/
theorem applyCalls_snapshot_ids_witness :
    (∀ c ∈ [((0, 1, some 1, some 3) : Call)], wfCallB c = true) ∧
      applyCalls (DynGraph.empty true) [(0, 1, some 1, some 3)] = some gCov ∧
      (List.Sorted (fun a b : Int => a ≤ b) (temporalSnapshotIds gCov) ∧
        (temporalSnapshotIds gCov).Nodup ∧
        ∀ x : Int, x ∈ temporalSnapshotIds gCov ↔ coversB gCov.tl x = true) :=
  ⟨by decide, rfl,
    applyCalls_snapshot_ids true [(0, 1, some 1, some 3)] gCov (by decide) rfl⟩

/-- C2 (counterexample): on the store holding `add_interaction(0, 1, t=5, e=8)`,
the failing call `add_interaction(0, 1, t=3)` raises the ordering
`ValueError` only after the ledger phase has run: the raise leaves a stale
`(0, 1, "+")` token at snapshot `3` in `time_to_edge`, so a failed mutation
is not atomic. -/
theorem addInteraction_error_ledger_residue :
    (addInteraction gErr 0 1 (some 3) none).2 = some Err.orderViolation ∧
      (addInteraction gErr 0 1 (some 3) none).1.ledger ≠ gErr.ledger ∧
      ledgerHasTok (addInteraction gErr 0 1 (some 3) none).1.ledger 3 (0, 1, true) = true := by
  refine ⟨by decide, by decide, by decide⟩

/-- C2 (amended): a failing `add_interaction` call never touches the
snapshot index or the removal flag; a call failing for a missing timestamp
changes nothing at all; and an ordering-violation failure on existing
nodes leaves the node dict, the adjacency and every edge timeline
unchanged — only the event ledger can keep the tokens recorded before the
raise. -/
theorem addInteraction_error_atomicity (g : DynGraph) (u v : Nat) (t? e : Option Int)
    (err : Err) (h : (addInteraction g u v t? e).2 = some err) :
    (addInteraction g u v t? e).1.snaps = g.snaps ∧
      (addInteraction g u v t? e).1.edgeRemoval = g.edgeRemoval ∧
      (t? = none → (addInteraction g u v t? e).1 = g) ∧
      (err = Err.orderViolation → u ∈ g.nodes → v ∈ g.nodes →
        (addInteraction g u v t? e).1.nodeAttrs = g.nodeAttrs ∧
        (addInteraction g u v t? e).1.adj = g.adj ∧
        (addInteraction g u v t? e).1.tl = g.tl) := by
  cases t? with
  | none =>
    exact ⟨rfl, rfl, fun _ => rfl, fun hov _ _ => ⟨rfl, rfl, rfl⟩⟩
  | some t0 =>
    have hA : (addInteraction g u v (some t0) e).1 =
        (aiTimeline (aiLedgerPhase (ensureNode (ensureNode g u) v) u v t0 e).2 u v t0
          (aiLedgerPhase (ensureNode (ensureNode g u) v) u v t0 e).1).1 := by
      have hs := addInteraction_snd_eq g u v t0 e
      unfold addInteraction at h ⊢
      dsimp only at h ⊢
      rcases hT : aiTimeline (aiLedgerPhase (ensureNode (ensureNode g u) v) u v t0 e).2 u v t0
          (aiLedgerPhase (ensureNode (ensureNode g u) v) u v t0 e).1 with ⟨g4, err4⟩
      rw [hT] at h
      cases err4 with
      | some err' => rfl
      | none => simp at h
    obtain ⟨hfa, hfn, hfs, hfe⟩ := aiTimeline_frame
      (aiLedgerPhase (ensureNode (ensureNode g u) v) u v t0 e).2 u v t0
      (aiLedgerPhase (ensureNode (ensureNode g u) v) u v t0 e).1
    refine ⟨?_, ?_, fun hcon => absurd hcon (by simp), ?_⟩
    · rw [hA, hfs, aiLedgerPhase_snaps, ensureNode_snaps, ensureNode_snaps]
    · rw [hA, hfe, aiLedgerPhase_er, ensureNode_er, ensureNode_er]
    · intro hov hu hv
      have hg1 : ensureNode (ensureNode g u) v = g := by
        rw [ensureNode_of_mem g u hu, ensureNode_of_mem g v hv]
      subst hov
      have hsnd := addInteraction_snd_eq g u v t0 e
      rw [h] at hsnd
      rcases hT : aiTimeline (aiLedgerPhase (ensureNode (ensureNode g u) v) u v t0 e).2 u v t0
          (aiLedgerPhase (ensureNode (ensureNode g u) v) u v t0 e).1 with ⟨g4, err4⟩
      rw [hT] at hsnd
      dsimp only at hsnd
      have herr4 : err4 = some Err.orderViolation := hsnd.symm
      subst herr4
      have hg4 := aiTimeline_orderViolation _ u v t0 _ g4 hT
      have hA1 : (addInteraction g u v (some t0) e).1 = g4 := by
        rw [hA, hT]
      rw [hA1, hg4, aiLedgerPhase_nodeAttrs, aiLedgerPhase_adj, aiLedgerPhase_tl, hg1]
      exact ⟨rfl, rfl, rfl⟩

/-- Witness for the amended C2 theorem at the concrete failing call. -/
theorem addInteraction_error_atomicity_witness :
    (addInteraction gErr 0 1 (some 3) none).2 = some Err.orderViolation ∧
      ((addInteraction gErr 0 1 (some 3) none).1.snaps = gErr.snaps ∧
        (addInteraction gErr 0 1 (some 3) none).1.edgeRemoval = gErr.edgeRemoval ∧
        ((some 3 : Option Int) = none → (addInteraction gErr 0 1 (some 3) none).1 = gErr) ∧
        (Err.orderViolation = Err.orderViolation → 0 ∈ gErr.nodes → 1 ∈ gErr.nodes →
          (addInteraction gErr 0 1 (some 3) none).1.nodeAttrs = gErr.nodeAttrs ∧
          (addInteraction gErr 0 1 (some 3) none).1.adj = gErr.adj ∧
          (addInteraction gErr 0 1 (some 3) none).1.tl = gErr.tl)) :=
  ⟨by decide,
    addInteraction_error_atomicity gErr 0 1 (some 3) none Err.orderViolation (by decide)⟩

/-- C6 (counterexample): on an accumulative store (`edge_removal=False`)
holding the edge `(1, 2)` with timeline `[[5, 5]]`, the call
`add_interaction(1, 2, t=3)` — a start before the recorded start — raises
the ordering `ValueError` instead of being silently ignored. -/
theorem addInteraction_accumulative_raises :
    gAcc.edgeRemoval = false ∧ hasEdgeB gAcc 1 2 = true ∧
      findTl gAcc.tl 1 2 = some [(5, 5)] ∧
      (addInteraction gAcc 1 2 (some 3) none).2 = some Err.orderViolation := by
  refine ⟨by decide, by decide, by decide, by decide⟩

/-- C6 (amended): on an accumulative store, a further `add_interaction` on
an existing edge raises no error exactly when its timestamp is at least
the start of the edge's tail interval (an earlier timestamp still raises
the ordering `ValueError`), and — error or not — `number_of_interactions()`
is unchanged. -/
theorem addInteraction_accumulative (g : DynGraph) (u v : Nat) (t : Int) (e : Option Int)
    (app : Timeline) (last : Int × Int)
    (her : g.edgeRemoval = false) (hu : u ∈ g.nodes) (hv : v ∈ g.nodes)
    (he : hasEdgeB g u v = true) (hsy : hasEdgeB g v u = true)
    (htl : findTl g.tl u v = some app) (hlast : app.getLast? = some last) :
    ((addInteraction g u v (some t) e).2 = none ↔ last.1 ≤ t) ∧
      numberOfInteractions (addInteraction g u v (some t) e).1 none none none =
        numberOfInteractions g none none none := by
  have hg1 : ensureNode (ensureNode g u) v = g := by
    rw [ensureNode_of_mem g u hu, ensureNode_of_mem g v hv]
  have hfst : (aiLedgerPhase g u v t e).1 = t := by
    rw [aiLedgerPhase_fst]
    cases e with
    | none => rfl
    | some ev =>
      dsimp only
      rw [her]
      rfl
  have hdeg := aiTimeline_degenerate (aiLedgerPhase g u v t e).2 u v t app last
    (by rw [aiLedgerPhase_tl]; exact htl) hlast
  constructor
  · rw [addInteraction_snd_eq g u v t e, hg1, hfst, hdeg]
    by_cases ht : t < last.1
    · rw [if_pos ht]
      simp only [reduceCtorEq, false_iff]
      omega
    · rw [if_neg ht]
      simp only [true_iff]
      omega
  · have hadj : (addInteraction g u v (some t) e).1.adj = g.adj := by
      obtain ⟨l, hlu, hvl⟩ := hasEdgeB_elim g u v he
      obtain ⟨l2, hlv, hul⟩ := hasEdgeB_elim g v u hsy
      unfold addInteraction
      dsimp only
      rw [hg1]
      rcases hT : aiTimeline (aiLedgerPhase g u v t e).2 u v t (aiLedgerPhase g u v t e).1
        with ⟨g4, err4⟩
      have hg4adj : g4.adj = g.adj := by
        have hfr := (aiTimeline_frame (aiLedgerPhase g u v t e).2 u v t
          (aiLedgerPhase g u v t e).1).1
        rw [hT] at hfr
        rw [hfr, aiLedgerPhase_adj]
      cases err4 with
      | some err' => exact hg4adj
      | none =>
        dsimp only
        rw [aiFinish_adj, hg4adj]
        rw [adjAddNbr_mem_eq g.adj u v l hlu hvl, adjAddNbr_mem_eq g.adj v u l2 hlv hul]
    exact numberOfInteractions_none_congr g _ hadj

/-- Witness for the amended C6 theorem at the concrete accumulative store. -/
theorem addInteraction_accumulative_witness :
    ((addInteraction gAcc 1 2 (some 7) none).2 = none ↔ (5 : Int) ≤ 7) ∧
      numberOfInteractions (addInteraction gAcc 1 2 (some 7) none).1 none none none =
        numberOfInteractions gAcc none none none :=
  addInteraction_accumulative gAcc 1 2 7 none [(5, 5)] (5, 5) (by decide) (by decide)
    (by decide) (by decide) (by decide) (by decide) (by decide)

set_option maxRecDepth 200000 in
/-- C3 (code bug exhibit): `time_slice` passes the clipped upper bound as
the vanishing time `e` of `add_interaction`, which records presence only
on `[t, e-1]`.  On the store with the single interaction
`add_interaction(0, 1, t=5)`, the slice `time_slice(5, 5)` keeps the node
pair but stores the empty interval `[5, 4]`: the original store has the
interaction at snapshot 5 and the slice does not, although 5 lies inside
the requested window. -/
theorem timeSlice_drops_window_end :
    hasInteraction gSlice 0 1 (some 5) = true ∧
      timeSlice gSlice 5 (some 5) = .ok hSlice ∧
      hasInteraction hSlice 0 1 none = true ∧
      hasInteraction hSlice 0 1 (some 5) = false ∧
      findTl hSlice.tl 0 1 = some [(5, 4)] := by
  refine ⟨by decide, rfl, by decide, by decide, by decide⟩
